import Mathlib

/-!
Shallow embedding of the AS-Tree (application secret tree) module
(`src/astree.rs`) of the repository, together with proofs about it.

Cryptographic byte strings are modelled symbolically: a `Secret` records
the full derivation tree (parent secret, HKDF label, and the
`ApplicationContext` fields `node` and `generation`).  This captures
exactly the information that `derive_app_secret` feeds into
`hkdf_expand_label`, so two model secrets are equal iff the real
implementation would derive them by identical HKDF invocations.

Machine integers (`u32`) are modelled as `Nat`; all generation values that
occur in the claims are far below `2^32`, so no wrap-around arithmetic is
involved.  Rust panics (out-of-bounds indexing, `unwrap` on `None`) are
modelled by returning `none` from the corresponding operation.
-/

/-- The ciphersuite selector.  The source file treats it as an opaque
value that picks external primitives; the tests use this single suite. -/
inductive CipherSuite where
  | MLS10_128_HPKEX25519_CHACHA20POLY1305_SHA256_Ed25519
  deriving DecidableEq

/-- Symbolic secret bytes: either an externally supplied secret (the
group-wide application secret, tagged to allow several distinct ones) or
the result of `derive_app_secret(ciphersuite, parent, label, node,
generation, length)` from the source.  The `length` argument of the real
function is determined by the call site and the ciphersuite and is not
part of the derivation context, so it is omitted. -/
inductive Secret where
  | initial (tag : Nat)
  | derived (parent : Secret) (label : String) (node : Nat) (generation : Nat)
  deriving DecidableEq

/-- `derive_app_secret` from the source: one `hkdf_expand_label`
invocation whose context is the encoded `ApplicationContext
{ node, generation }`. -/
def derive_app_secret (parent : Secret) (label : String) (node generation : Nat) : Secret :=
  Secret.derived parent label node generation

/-- `ASError` from the source. -/
inductive ASError where
  | TooDistantInThePast
  | TooDistantInTheFuture
  | IndexOutOfBounds
  deriving DecidableEq

/-- `ApplicationSecrets` from the source: the (nonce, key) pair returned
to the caller. -/
structure ApplicationSecrets where
  nonce : Secret
  key : Secret
  deriving DecidableEq

/-- `OUT_OF_ORDER_TOLERANCE` from the source. -/
def OUT_OF_ORDER_TOLERANCE : Nat := 5

/-- `MAXIMUM_FORWARD_DISTANCE` from the source. -/
def MAXIMUM_FORWARD_DISTANCE : Nat := 1000

/-- `SenderRatchet` from the source. -/
structure SenderRatchet where
  ciphersuite : CipherSuite
  index : Nat
  generation : Nat
  past_secrets : List Secret
  deriving DecidableEq

/-- `SenderRatchet::new` from the source. -/
def SenderRatchet.new (index : Nat) (secret : Secret) (ciphersuite : CipherSuite) :
    SenderRatchet :=
  { ciphersuite := ciphersuite
    index := index
    generation := 0
    past_secrets := [secret] }

/-- `SenderRatchet::ratchet_secret` from the source: one chain step,
label `"app-secret"`, context node = `self.index`, context generation =
`self.generation` (the ratchet's current generation field). -/
def SenderRatchet.ratchet_secret (r : SenderRatchet) (secret : Secret) : Secret :=
  derive_app_secret secret "app-secret" r.index r.generation

/-- `SenderRatchet::derive_key_nonce` from the source. -/
def SenderRatchet.derive_key_nonce (r : SenderRatchet) (secret : Secret) (generation : Nat) :
    ApplicationSecrets :=
  { nonce := derive_app_secret secret "app-nonce" r.index generation
    key := derive_app_secret secret "app-key" r.index generation }

/-- The `for _ in 0..(generation - self.generation)` loop of
`SenderRatchet::get_secret`, acting on `past_secrets`.  Each iteration
drops the oldest entry when the window is at capacity
(`OUT_OF_ORDER_TOLERANCE`), then appends one chain step derived from the
last entry.  `self.generation` is not modified inside the loop, so the
context generation `gen` is a fixed parameter.  Returns `none` when the
window is empty (the source would panic on `unwrap`). -/
def advanceChain (idx gen : Nat) : Nat → List Secret → Option (List Secret)
  | 0, l => some l
  | k + 1, l =>
    let l2 := if l.length = OUT_OF_ORDER_TOLERANCE then l.drop 1 else l
    match l2.getLast? with
    | none => none
    | some s =>
        advanceChain idx gen k (l2 ++ [derive_app_secret s "app-secret" idx gen])

/-- `SenderRatchet::get_secret` from the source.  The outer `Option` is
`none` exactly when the Rust code would panic (window-index underflow or
`unwrap` of a missing entry); otherwise the result is the returned
`Result` together with the ratchet state after the call (the source
mutates `self` in place). -/
def SenderRatchet.get_secret (r : SenderRatchet) (generation : Nat) :
    Option (Except ASError ApplicationSecrets × SenderRatchet) :=
  if generation > r.generation + MAXIMUM_FORWARD_DISTANCE then
    some (Except.error ASError.TooDistantInTheFuture, r)
  else if generation < r.generation ∧ r.generation - generation ≥ OUT_OF_ORDER_TOLERANCE then
    some (Except.error ASError.TooDistantInThePast, r)
  else if generation ≤ r.generation then
    if r.generation - generation + 1 ≤ r.past_secrets.length then
      match r.past_secrets[r.past_secrets.length - (r.generation - generation) - 1]? with
      | some secret => some (Except.ok (r.derive_key_nonce secret generation), r)
      | none => none
    else none
  else
    match advanceChain r.index r.generation (generation - r.generation) r.past_secrets with
    | none => none
    | some l =>
      match l.getLast? with
      | none => none
      | some s =>
          some (Except.ok (r.derive_key_nonce s generation),
            { r with generation := generation, past_secrets := l })

/-!
## Tree math

`crate::treemath` is not part of the given sources (only its callers
are), so the index arithmetic is modelled from the spec: a left-balanced
binary tree over `size` leaves stored in an array of `2·size − 1` node
slots, leaves at even indices (`RosterIndex i ↦ TreeIndex 2·i`),
`root`/`left`/`right`/`dirpath` as described in §3/§6 of the spec.  The
model is the standard recursive subdivision: for `n ≥ 2` leaves the left
subtree is a full tree on `treeB n` leaves occupying indices
`0 .. 2·(treeB n) − 2`, the root sits at `2·(treeB n) − 1`, and the
right subtree on the remaining leaves occupies the indices above it,
shifted by `2·(treeB n)`.  All functions recurse on an explicit fuel
argument (always instantiated with `n`) so that they are structurally
recursive and evaluate by `decide`.
-/

/-- Modelled from the spec: number of leaves of the left subtree — the
largest power of two strictly below `n` (for `n ≥ 2`). -/
def treeB : Nat → Nat
  | 0 => 1
  | 1 => 1
  | n + 2 => if 2 * treeB (n + 1) < n + 2 then 2 * treeB (n + 1) else treeB (n + 1)

/-- Modelled from the spec: `root(size)` — the tree index of the root of
a tree with `n` leaves. -/
def root (n : Nat) : Nat :=
  if n ≤ 1 then 0 else 2 * treeB n - 1

/-- Fueled helper for `leftRight`. -/
def leftRightF : Nat → Nat → Nat → Nat × Nat
  | 0, _, x => (x, x)
  | fuel + 1, n, x =>
    if n ≤ 1 then (x, x)
    else
      let b := treeB n
      if x = 2 * b - 1 then (root b, 2 * b + root (n - b))
      else if x < 2 * b - 1 then leftRightF fuel b x
      else
        let p := leftRightF fuel (n - b) (x - 2 * b)
        (2 * b + p.1, 2 * b + p.2)

/-- Modelled from the spec: `(left(x), right(x, n))` — the two children
of internal node `x` in a tree with `n` leaves. -/
def leftRight (n x : Nat) : Nat × Nat := leftRightF n n x

/-- Fueled helper for `pathUp`. -/
def pathUpF : Nat → Nat → Nat → List Nat
  | 0, _, _ => []
  | fuel + 1, n, x =>
    if n ≤ 1 then []
    else
      let b := treeB n
      if x < 2 * b - 1 then pathUpF fuel b x ++ [2 * b - 1]
      else (pathUpF fuel (n - b) (x - 2 * b)).map (fun y => 2 * b + y) ++ [2 * b - 1]

/-- The ancestors of leaf index `x` in a tree with `n` leaves, from the
parent up to and including the root.  `dirpath` of the source is this
list without its final (root) element. -/
def pathUp (n x : Nat) : List Nat := pathUpF n n x

/-- Modelled from the spec: `dirpath(x, n)` — the direct path of leaf
tree-index `x`, root-exclusive and leaf-exclusive, ordered from just
above the leaf upward. -/
def dirpath (n x : Nat) : List Nat := (pathUp n x).dropLast

/-- Fueled helper for `ancestors`. -/
def ancestorsF : Nat → Nat → Nat → List Nat
  | 0, _, _ => []
  | fuel + 1, n, x =>
    if n ≤ 1 then []
    else
      let b := treeB n
      if x = 2 * b - 1 then []
      else if x < 2 * b - 1 then (2 * b - 1) :: ancestorsF fuel b x
      else (2 * b - 1) :: (ancestorsF fuel (n - b) (x - 2 * b)).map (fun y => 2 * b + y)

/-- The strict ancestors of an arbitrary node index `x` in a tree with
`n` leaves, listed top-down starting from the root.  (Not part of the
source; used to state the erasure invariant.) -/
def ancestors (n x : Nat) : List Nat := ancestorsF n n x

/-!
## The AS-Tree
-/

/-- `ASTreeNode` from the source. -/
structure ASTreeNode where
  secret : Secret
  deriving DecidableEq

/-- `ASTree` from the source.  `nodes` has `2·size − 1` entries in every
state produced by `ASTree::new` and `ASTree::get_secret`. -/
structure ASTree where
  ciphersuite : CipherSuite
  nodes : List (Option ASTreeNode)
  sender_ratchets : List (Option SenderRatchet)
  size : Nat
  deriving DecidableEq

/-- `ASTree::new` from the source: all node slots empty except the root,
which holds the application secret; all ratchet slots empty. -/
def ASTree.new (ciphersuite : CipherSuite) (application_secret : Secret) (size : Nat) :
    ASTree :=
  { ciphersuite := ciphersuite
    nodes := (List.replicate (2 * size - 1) (none : Option ASTreeNode)).set (root size)
      (some { secret := application_secret })
    sender_ratchets := List.replicate size (none : Option SenderRatchet)
    size := size }

/-- `ASTree::get_generation` from the source.  The slot access
`self.sender_ratchets[sender.as_usize()]` has no bounds check, so the
result is `none` (a Rust panic) when `sender` is not a valid index. -/
def ASTree.get_generation (t : ASTree) (sender : Nat) : Option Nat :=
  match t.sender_ratchets[sender]? with
  | none => none
  | some none => some 0
  | some (some r) => some r.generation

/-- `ASTree::hash_down` from the source: derive the two child secrets of
`x` from its secret with label `"tree"` and context generation `0`, then
erase `x`.  `none` models the panics (`unwrap` of an empty slot,
out-of-bounds write). -/
def ASTree.hash_down (t : ASTree) (x : Nat) : Option ASTree :=
  match t.nodes[x]? with
  | none => none
  | some none => none
  | some (some nd) =>
    let l := (leftRight t.size x).1
    let r := (leftRight t.size x).2
    if l < t.nodes.length ∧ r < t.nodes.length then
      some { t with nodes :=
        (((t.nodes.set l (some { secret := derive_app_secret nd.secret "tree" l 0 })).set r
          (some { secret := derive_app_secret nd.secret "tree" r 0 })).set x none) }
    else none

/-- The `for n in empty_nodes { self.hash_down(n); }` loop of
`ASTree::get_secret`. -/
def ASTree.hashDownAll (t : ASTree) : List Nat → Option ASTree
  | [] => some t
  | x :: rest =>
    match t.hash_down x with
    | none => none
    | some t2 => t2.hashDownAll rest

/-- The scan loop of `ASTree::get_secret`: walk the direct path from the
leaf upward, collecting indices until (and including) the first live
node.  `none` models the panic of the unchecked read `self.nodes[n]`. -/
def scanPath (nodes : List (Option ASTreeNode)) : List Nat → Option (List Nat)
  | [] => some []
  | x :: rest =>
    match nodes[x]? with
    | none => none
    | some (some _) => some [x]
    | some none =>
      match scanPath nodes rest with
      | none => none
      | some l => some (x :: l)

/-- The lazy path-materialization part of `ASTree::get_secret` (lines
276–291 of the source): build the direct path, scan it, hash the found
live ancestor down to the leaf.  Returns the updated tree and the leaf
secret (the leaf slot is not yet erased — the source erases it after
seeding the ratchet). -/
def ASTree.materializeLeaf (t : ASTree) (index : Nat) : Option (ASTree × Secret) :=
  let leaf := 2 * index
  let dir_path := leaf :: (dirpath t.size leaf ++ [root t.size])
  match scanPath t.nodes dir_path with
  | none => none
  | some e =>
    match t.hashDownAll (e.drop 1).reverse with
    | none => none
    | some t2 =>
      match t2.nodes[leaf]? with
      | some (some nd) => some (t2, nd.secret)
      | _ => none

/-- `ASTree::get_secret` from the source.  The outer `Option` is `none`
exactly when the Rust code would panic; otherwise the result is the
returned `Result` paired with the tree state after the call. -/
def ASTree.get_secret (t : ASTree) (index generation : Nat) :
    Option (Except ASError ApplicationSecrets × ASTree) :=
  if index ≥ t.size then some (Except.error ASError.IndexOutOfBounds, t)
  else
    match t.sender_ratchets[index]? with
    | some (some ratchet) =>
      match ratchet.get_secret generation with
      | none => none
      | some (res, r2) =>
        some (res, { t with sender_ratchets := t.sender_ratchets.set index (some r2) })
    | _ =>
      match t.materializeLeaf index with
      | none => none
      | some (t2, node_secret) =>
        let sr := SenderRatchet.new index node_secret t.ciphersuite
        match sr.get_secret generation with
        | none => none
        | some (res, r2) =>
          some (res, { t2 with
            nodes := t2.nodes.set (2 * index) none,
            sender_ratchets := t2.sender_ratchets.set index (some r2) })

/-!
## Helpers used to state the claims
-/

/-- The last `m` entries of a list. -/
def lastN (m : Nat) (l : List α) : List α := l.drop (l.length - m)

/-- One ratchet chain step with a fixed context: label `"app-secret"`,
node `idx`, generation `gen`. -/
def chainStep (idx gen : Nat) (s : Secret) : Secret :=
  derive_app_secret s "app-secret" idx gen

/-- The list of `k` successive chain secrets derived from `s` with the
fixed context `(idx, gen)`. -/
def chainExt (idx gen : Nat) : Secret → Nat → List Secret
  | _, 0 => []
  | s, k + 1 => chainStep idx gen s :: chainExt idx gen (chainStep idx gen s) k

/-- The `k`-fold chain step: the final secret of `chainExt`. -/
def chainLast (idx gen : Nat) : Secret → Nat → Secret
  | s, 0 => s
  | s, k + 1 => chainLast idx gen (chainStep idx gen s) k

/-- Generation of the ratchet at slot `i`, `0` when absent or out of
range — the value `ASTree::get_generation` would return where it is
defined. -/
def genAt (t : ASTree) (i : Nat) : Nat :=
  match t.sender_ratchets[i]? with
  | some (some r) => r.generation
  | _ => 0

/-- Window invariant of a single ratchet slot: the window length is
`min OUT_OF_ORDER_TOLERANCE (generation + 1)`.  `SenderRatchet::new`
establishes it and `get_secret` preserves it. -/
def ratchetOK : Option SenderRatchet → Prop
  | none => True
  | some r => r.past_secrets.length = min OUT_OF_ORDER_TOLERANCE (r.generation + 1)

instance (o : Option SenderRatchet) : Decidable (ratchetOK o) :=
  match o with
  | none => isTrue trivial
  | some _ => inferInstanceAs (Decidable (_ = _))

/-- Tree well-formedness used as a hypothesis: the ratchet array has one
slot per roster member and every present ratchet satisfies the window
invariant.  `ASTree::new` establishes it and `get_secret` preserves
it. -/
def ASTree.WF (t : ASTree) : Prop :=
  t.sender_ratchets.length = t.size ∧ ∀ o ∈ t.sender_ratchets, ratchetOK o

instance (t : ASTree) : Decidable t.WF :=
  inferInstanceAs (Decidable (_ ∧ _))

/-- One externally observable transition: a single `get_secret` call
that does not panic (any result, success or error). -/
def StepR (t t2 : ASTree) : Prop :=
  ∃ i g res, t.get_secret i g = some (res, t2)

/-- Any finite sequence of `get_secret` calls. -/
def Steps : ASTree → ASTree → Prop := Relation.ReflTransGen StepR

/-- Trees reachable from `ASTree::new` by any sequence of `get_secret`
calls. -/
inductive Reachable : ASTree → Prop
  | base (cs : CipherSuite) (s : Secret) (n : Nat) : Reachable (ASTree.new cs s n)
  | step {t t2 : ASTree} : Reachable t → StepR t t2 → Reachable t2

/-- A node slot that has been erased: it is empty and so are all of its
strict ancestors.  In a reachable tree this characterises exactly the
slots that once held a secret and were wiped (a never-touched slot always
lies strictly below the live frontier, i.e. has a live strict
ancestor). -/
def ErasedSlot (t : ASTree) (j : Nat) : Prop :=
  t.nodes[j]? = some none ∧ ∀ a ∈ ancestors t.size j, t.nodes[a]? = some none

/-- Frontier invariant of reachable trees: every live node slot has all
of its strict ancestors empty. -/
def NodesInv (t : ASTree) : Prop :=
  ∀ j nd, t.nodes[j]? = some (some nd) → ∀ a ∈ ancestors t.size j, t.nodes[a]? = some none

/-!
## Byte-level codec model

For the round-trip claim the secrets are what they really are on the
wire: byte strings.  The codec primitives (`u32::encode`, `encode_vec`,
`decode_vec`, `Cursor`, the `Option` discriminant) live in
`crate::codec`, which is not part of the given sources, so they are
modelled from the spec (§4.4): big-endian integers, a 1-byte length
prefix for `VecU8`, a 4-byte byte-length prefix for `VecU32`, a 1-byte
`0`/`1` discriminant for `Option` slots.  The `Codec` implementations
for `ASTreeNode`, `SenderRatchet` and `ASTree` are translated from the
source.  Encoders return `none` when a length or integer field does not
fit its prefix; decoders consume a prefix of the byte list and return
the remainder.
-/

/-- Byte-level `ASTreeNode`. -/
structure ASTreeNodeB where
  secret : List Nat
  deriving DecidableEq

/-- Byte-level `SenderRatchet`. -/
structure SenderRatchetB where
  ciphersuite : CipherSuite
  index : Nat
  generation : Nat
  past_secrets : List (List Nat)
  deriving DecidableEq

/-- Byte-level `ASTree`. -/
structure ASTreeB where
  ciphersuite : CipherSuite
  nodes : List (Option ASTreeNodeB)
  sender_ratchets : List (Option SenderRatchetB)
  size : Nat
  deriving DecidableEq

/-- Big-endian `u8`. -/
def encodeU8 (n : Nat) : Option (List Nat) :=
  if n < 256 then some [n] else none

/-- Big-endian `u16` (width of the `CipherSuite` discriminant). -/
def encodeU16 (n : Nat) : Option (List Nat) :=
  if n < 65536 then some [n / 256, n % 256] else none

/-- Big-endian `u32`. -/
def encodeU32 (n : Nat) : Option (List Nat) :=
  if n < 4294967296 then
    some [n / 16777216 % 256, n / 65536 % 256, n / 256 % 256, n % 256]
  else none

/-- Read one byte. -/
def decodeU8 : List Nat → Option (Nat × List Nat)
  | [] => none
  | b :: r => some (b, r)

/-- Read a big-endian `u16`. -/
def decodeU16 : List Nat → Option (Nat × List Nat)
  | a :: b :: r => some (a * 256 + b, r)
  | _ => none

/-- Read a big-endian `u32`. -/
def decodeU32 : List Nat → Option (Nat × List Nat)
  | a :: b :: c :: d :: r => some (((a * 256 + b) * 256 + c) * 256 + d, r)
  | _ => none

/-- The numeric value of the ciphersuite discriminant (value 3 in the
MLS registry). -/
def CipherSuite.toVal : CipherSuite → Nat
  | CipherSuite.MLS10_128_HPKEX25519_CHACHA20POLY1305_SHA256_Ed25519 => 3

/-- Encode the ciphersuite. -/
def encodeCipherSuite (c : CipherSuite) : Option (List Nat) :=
  encodeU16 c.toVal

/-- Decode the ciphersuite. -/
def decodeCipherSuite (bs : List Nat) : Option (CipherSuite × List Nat) :=
  match decodeU16 bs with
  | some (3, r) =>
      some (CipherSuite.MLS10_128_HPKEX25519_CHACHA20POLY1305_SHA256_Ed25519, r)
  | _ => none

/-- `encode_vec(VecSize::VecU8, ...)`: 1-byte length prefix followed by
the raw bytes. -/
def encodeVecU8 (l : List Nat) : Option (List Nat) :=
  (encodeU8 l.length).map (fun p => p ++ l)

/-- `decode_vec(VecSize::VecU8, ...)`. -/
def decodeVecU8 (bs : List Nat) : Option (List Nat × List Nat) :=
  match decodeU8 bs with
  | none => none
  | some (len, r) => if len ≤ r.length then some (r.take len, r.drop len) else none

/-- Concatenate the encodings of all elements. -/
def encodeListWith (enc : α → Option (List Nat)) : List α → Option (List Nat)
  | [] => some []
  | x :: xs =>
    match enc x, encodeListWith enc xs with
    | some e, some es => some (e ++ es)
    | _, _ => none

/-- Decode elements until the byte region is exhausted; the fuel is the
byte length of the region, which bounds the element count since every
element encoding is nonempty. -/
def decodeElems (dec : List Nat → Option (α × List Nat)) : Nat → List Nat → Option (List α)
  | _, [] => some []
  | 0, _ :: _ => none
  | f + 1, b :: r =>
    match dec (b :: r) with
    | none => none
    | some (x, rest) =>
      match decodeElems dec f rest with
      | some xs => some (x :: xs)
      | none => none

/-- `encode_vec(VecSize::VecU32, ...)`: 4-byte byte-length prefix
followed by the element encodings. -/
def encodeVec32With (enc : α → Option (List Nat)) (xs : List α) : Option (List Nat) :=
  match encodeListWith enc xs with
  | none => none
  | some contents => (encodeU32 contents.length).map (fun p => p ++ contents)

/-- `decode_vec(VecSize::VecU32, ...)`. -/
def decodeVec32With (dec : List Nat → Option (α × List Nat)) (bs : List Nat) :
    Option (List α × List Nat) :=
  match decodeU32 bs with
  | none => none
  | some (len, r) =>
    if len ≤ r.length then
      match decodeElems dec len (r.take len) with
      | some xs => some (xs, r.drop len)
      | none => none
    else none

/-- Read exactly `k` elements (used for `past_secrets`, whose count is
explicit in the encoding). -/
def decodeCount (dec : List Nat → Option (α × List Nat)) : Nat → List Nat →
    Option (List α × List Nat)
  | 0, bs => some ([], bs)
  | k + 1, bs =>
    match dec bs with
    | none => none
    | some (x, r) =>
      match decodeCount dec k r with
      | none => none
      | some (xs, r2) => some (x :: xs, r2)

/-- `impl Codec for ASTreeNode`, `encode` (translated from the source). -/
def encodeASTreeNodeB (nd : ASTreeNodeB) : Option (List Nat) :=
  encodeVecU8 nd.secret

/-- `impl Codec for ASTreeNode`, `decode` (translated from the source). -/
def decodeASTreeNodeB (bs : List Nat) : Option (ASTreeNodeB × List Nat) :=
  match decodeVecU8 bs with
  | none => none
  | some (s, r) => some ({ secret := s }, r)

/-- Encoding of an `Option`al slot (modelled from the spec: a 1-byte
discriminant, 0 = absent, 1 = present followed by the body). -/
def encodeOptWith (enc : α → Option (List Nat)) : Option α → Option (List Nat)
  | none => some [0]
  | some x => (enc x).map (fun e => 1 :: e)

/-- Decoding of an `Option`al slot. -/
def decodeOptWith (dec : List Nat → Option (α × List Nat)) : List Nat →
    Option (Option α × List Nat)
  | [] => none
  | b :: r =>
    if b = 0 then some (none, r)
    else if b = 1 then
      match dec r with
      | none => none
      | some (x, rest) => some (some x, rest)
    else none

/-- `impl Codec for SenderRatchet`, `encode` (translated from the
source): ciphersuite, index as `u32`, generation, `past_secrets` count
as `u32`, then each window entry as a `VecU8`. -/
def encodeSenderRatchetB (r : SenderRatchetB) : Option (List Nat) :=
  match encodeCipherSuite r.ciphersuite, encodeU32 r.index, encodeU32 r.generation,
      encodeU32 r.past_secrets.length, encodeListWith encodeVecU8 r.past_secrets with
  | some e1, some e2, some e3, some e4, some e5 => some (e1 ++ e2 ++ e3 ++ e4 ++ e5)
  | _, _, _, _, _ => none

/-- `impl Codec for SenderRatchet`, `decode` (translated from the
source). -/
def decodeSenderRatchetB (bs : List Nat) : Option (SenderRatchetB × List Nat) :=
  match decodeCipherSuite bs with
  | none => none
  | some (cs, r1) =>
    match decodeU32 r1 with
    | none => none
    | some (idx, r2) =>
      match decodeU32 r2 with
      | none => none
      | some (gen, r3) =>
        match decodeU32 r3 with
        | none => none
        | some (len, r4) =>
          match decodeCount decodeVecU8 len r4 with
          | none => none
          | some (ps, r5) => some (⟨cs, idx, gen, ps⟩, r5)

/-- `impl Codec for ASTree`, `encode` (translated from the source):
ciphersuite, the node array and the ratchet array as `VecU32` vectors of
optional slots, then the size as `u32`. -/
def encodeASTreeB (t : ASTreeB) : Option (List Nat) :=
  match encodeCipherSuite t.ciphersuite,
      encodeVec32With (encodeOptWith encodeASTreeNodeB) t.nodes,
      encodeVec32With (encodeOptWith encodeSenderRatchetB) t.sender_ratchets,
      encodeU32 t.size with
  | some e1, some e2, some e3, some e4 => some (e1 ++ e2 ++ e3 ++ e4)
  | _, _, _, _ => none

/-- `impl Codec for ASTree`, `decode` (translated from the source). -/
def decodeASTreeB (bs : List Nat) : Option (ASTreeB × List Nat) :=
  match decodeCipherSuite bs with
  | none => none
  | some (cs, r1) =>
    match decodeVec32With (decodeOptWith decodeASTreeNodeB) r1 with
    | none => none
    | some (nodes, r2) =>
      match decodeVec32With (decodeOptWith decodeSenderRatchetB) r2 with
      | none => none
      | some (ratchets, r3) =>
        match decodeU32 r3 with
        | none => none
        | some (size, r4) => some (⟨cs, nodes, ratchets, size⟩, r4)

/-- The ciphersuite used by the source's tests and the spec's concrete
scenarios. -/
def cs0 : CipherSuite := CipherSuite.MLS10_128_HPKEX25519_CHACHA20POLY1305_SHA256_Ed25519

/-- A concrete application secret for witnesses. -/
def appSecret0 : Secret := Secret.initial 0

/-- Concrete equality tests on call results (used by witnesses). -/
instance {e a : Type} [DecidableEq e] [DecidableEq a] : DecidableEq (Except e a) :=
  fun x y =>
  match x, y with
  | Except.error e1, Except.error e2 => decidable_of_iff (e1 = e2) (by simp)
  | Except.ok a1, Except.ok a2 => decidable_of_iff (a1 = a2) (by simp)
  | Except.error _, Except.ok _ => isFalse (by simp)
  | Except.ok _, Except.error _ => isFalse (by simp)

/-!
## List helper lemmas
-/

theorem list_set_self {α : Type} (l : List α) (n : Nat) (a : α) (h : l[n]? = some a) :
    l.set n a = l := by
  induction l generalizing n with
  | nil => simp at h
  | cons x xs ih =>
    cases n with
    | zero => simp at h; simp [List.set, h]
    | succ m => simp at h; simp [List.set, ih m h]

theorem lastN_of_le {α : Type} (m : Nat) (l : List α) (h : l.length ≤ m) : lastN m l = l := by
  simp [lastN, Nat.sub_eq_zero_of_le h]

theorem length_lastN {α : Type} (m : Nat) (l : List α) :
    (lastN m l).length = min m l.length := by
  simp only [lastN, List.length_drop]
  omega

theorem lastN_drop {α : Type} (m d : Nat) (l : List α) (h : m + d ≤ l.length) :
    lastN m (l.drop d) = lastN m l := by
  simp only [lastN, List.drop_drop, List.length_drop]
  congr 1
  omega

theorem getLast?_drop_of_lt {α : Type} (l : List α) (d : Nat) (h : d < l.length) :
    (l.drop d).getLast? = l.getLast? := by
  conv_rhs => rw [← List.take_append_drop d l]
  rw [List.getLast?_append_of_ne_nil]
  intro hnil
  have := congrArg List.length hnil
  simp at this
  omega

theorem getLast?_lastN {α : Type} (m : Nat) (l : List α) (hm : 1 ≤ m) (hl : l ≠ []) :
    (lastN m l).getLast? = l.getLast? := by
  have hlen : 0 < l.length := List.length_pos.mpr hl
  exact getLast?_drop_of_lt l (l.length - m) (by omega)

/-!
## Chain lemmas
-/

theorem length_chainExt (idx gen : Nat) (s : Secret) (k : Nat) :
    (chainExt idx gen s k).length = k := by
  induction k generalizing s with
  | zero => rfl
  | succ n ih => simp [chainExt, ih]

theorem chainExt_labels (idx gen : Nat) (s : Secret) (k : Nat) :
    ∀ x ∈ chainExt idx gen s k, ∃ p, x = Secret.derived p "app-secret" idx gen := by
  induction k generalizing s with
  | zero => intro x hx; simp [chainExt] at hx
  | succ n ih =>
    intro x hx
    simp only [chainExt, List.mem_cons] at hx
    rcases hx with h | h
    · exact ⟨s, h⟩
    · exact ih (chainStep idx gen s) x h

theorem getLast?_append_chainExt (idx gen : Nat) (k : Nat) :
    ∀ (l : List Secret) (s : Secret), l.getLast? = some s →
      (l ++ chainExt idx gen s k).getLast? = some (chainLast idx gen s k) := by
  induction k with
  | zero => intro l s h; simpa [chainExt, chainLast] using h
  | succ n ih =>
    intro l s h
    have h2 : (l ++ [chainStep idx gen s]).getLast? = some (chainStep idx gen s) := by
      rw [List.getLast?_append_of_ne_nil _ (by simp)]; rfl
    have := ih (l ++ [chainStep idx gen s]) (chainStep idx gen s) h2
    simpa [chainExt, chainLast, List.append_assoc] using this

theorem advanceChain_eq (idx gen : Nat) (k : Nat) :
    ∀ (l : List Secret) (s : Secret), l.getLast? = some s →
      l.length ≤ OUT_OF_ORDER_TOLERANCE →
      advanceChain idx gen k l =
        some (lastN OUT_OF_ORDER_TOLERANCE (l ++ chainExt idx gen s k)) := by
  induction k with
  | zero =>
    intro l s hlast hlen
    simp [advanceChain, chainExt, lastN_of_le _ _ hlen]
  | succ n ih =>
    intro l s hlast hlen
    have htol : OUT_OF_ORDER_TOLERANCE = 5 := rfl
    have hne : l ≠ [] := by
      intro h; rw [h] at hlast; simp at hlast
    have hpos : 0 < l.length := List.length_pos.mpr hne
    by_cases h5 : l.length = OUT_OF_ORDER_TOLERANCE
    · have hdlast : (l.drop 1).getLast? = some s := by
        rw [getLast?_drop_of_lt l 1 (by omega)]; exact hlast
      have hlast2 : (l.drop 1 ++ [chainStep idx gen s]).getLast? =
          some (chainStep idx gen s) := by
        rw [List.getLast?_append_of_ne_nil _ (by simp)]; rfl
      have hlen2 : (l.drop 1 ++ [chainStep idx gen s]).length ≤ OUT_OF_ORDER_TOLERANCE := by
        simp [List.length_drop]; omega
      have := ih (l.drop 1 ++ [chainStep idx gen s]) (chainStep idx gen s) hlast2 hlen2
      rw [advanceChain, if_pos h5]
      simp only [hdlast]
      rw [show derive_app_secret s "app-secret" idx gen = chainStep idx gen s from rfl, this]
      congr 1
      have hdropapp : l.drop 1 ++ (chainStep idx gen s :: chainExt idx gen (chainStep idx gen s) n) =
          (l ++ (chainStep idx gen s :: chainExt idx gen (chainStep idx gen s) n)).drop 1 := by
        rw [List.drop_append_eq_append_drop]
        simp [Nat.sub_eq_zero_of_le hpos]
      calc lastN OUT_OF_ORDER_TOLERANCE
            (l.drop 1 ++ [chainStep idx gen s] ++ chainExt idx gen (chainStep idx gen s) n)
          = lastN OUT_OF_ORDER_TOLERANCE
            ((l ++ (chainStep idx gen s :: chainExt idx gen (chainStep idx gen s) n)).drop 1) := by
            rw [← hdropapp]; simp [List.append_assoc]
        _ = lastN OUT_OF_ORDER_TOLERANCE
            (l ++ chainExt idx gen s (n + 1)) := by
            rw [lastN_drop]
            · simp [chainExt]
            · simp [length_chainExt]; omega
    · have hlast2 : (l ++ [chainStep idx gen s]).getLast? = some (chainStep idx gen s) := by
        rw [List.getLast?_append_of_ne_nil _ (by simp)]; rfl
      have hlen2 : (l ++ [chainStep idx gen s]).length ≤ OUT_OF_ORDER_TOLERANCE := by
        simp; omega
      have := ih (l ++ [chainStep idx gen s]) (chainStep idx gen s) hlast2 hlen2
      rw [advanceChain, if_neg h5]
      simp only [hlast]
      rw [show derive_app_secret s "app-secret" idx gen = chainStep idx gen s from rfl, this]
      congr 1
      simp [chainExt, List.append_assoc]

/-!
## `SenderRatchet.get_secret` branch lemmas
-/

theorem get_secret_future (r : SenderRatchet) (g : Nat)
    (h : g > r.generation + MAXIMUM_FORWARD_DISTANCE) :
    r.get_secret g = some (Except.error ASError.TooDistantInTheFuture, r) := by
  rw [SenderRatchet.get_secret, if_pos h]

theorem get_secret_past (r : SenderRatchet) (g : Nat) (h1 : g < r.generation)
    (h2 : r.generation - g ≥ OUT_OF_ORDER_TOLERANCE) :
    r.get_secret g = some (Except.error ASError.TooDistantInThePast, r) := by
  rw [SenderRatchet.get_secret, if_neg (by omega), if_pos ⟨h1, h2⟩]

theorem get_secret_window (r : SenderRatchet) (g : Nat)
    (h1 : g ≤ r.generation) (h2 : r.generation - g < OUT_OF_ORDER_TOLERANCE)
    (h3 : r.generation - g + 1 ≤ r.past_secrets.length) :
    ∃ sec, r.past_secrets[r.past_secrets.length - (r.generation - g) - 1]? = some sec ∧
      r.get_secret g = some (Except.ok (r.derive_key_nonce sec g), r) := by
  have hidx : r.past_secrets.length - (r.generation - g) - 1 < r.past_secrets.length := by
    omega
  have hget := List.getElem?_eq_getElem hidx
  refine ⟨r.past_secrets[r.past_secrets.length - (r.generation - g) - 1], hget, ?_⟩
  rw [SenderRatchet.get_secret, if_neg (by omega), if_neg (by omega), if_pos h1,
    if_pos h3, hget]

theorem get_secret_advance (r : SenderRatchet) (g : Nat) (s : Secret)
    (h1 : r.generation < g) (h2 : g ≤ r.generation + MAXIMUM_FORWARD_DISTANCE)
    (hs : r.past_secrets.getLast? = some s)
    (hlen : r.past_secrets.length ≤ OUT_OF_ORDER_TOLERANCE) :
    r.get_secret g = some
      (Except.ok (r.derive_key_nonce (chainLast r.index r.generation s (g - r.generation)) g),
        { r with generation := g,
                 past_secrets := lastN OUT_OF_ORDER_TOLERANCE
                   (r.past_secrets ++ chainExt r.index r.generation s (g - r.generation)) }) := by
  have hne : r.past_secrets ≠ [] := by
    intro h; rw [h] at hs; simp at hs
  have hlast2 : (lastN OUT_OF_ORDER_TOLERANCE
      (r.past_secrets ++ chainExt r.index r.generation s (g - r.generation))).getLast? =
      some (chainLast r.index r.generation s (g - r.generation)) := by
    rw [getLast?_lastN _ _ (by norm_num [OUT_OF_ORDER_TOLERANCE]) (by simp [hne])]
    exact getLast?_append_chainExt r.index r.generation (g - r.generation) r.past_secrets s hs
  rw [SenderRatchet.get_secret, if_neg (by omega), if_neg (by omega), if_neg (by omega),
    advanceChain_eq r.index r.generation (g - r.generation) r.past_secrets s hs hlen]
  simp only [hlast2]

theorem get_secret_error_no_mutation (r : SenderRatchet) (g : Nat) (e : ASError)
    (r2 : SenderRatchet) (h : r.get_secret g = some (Except.error e, r2)) : r2 = r := by
  rw [SenderRatchet.get_secret] at h
  repeat' split at h
  all_goals simp at h
  all_goals first
  | exact h.2
  | exact h.2.symm

theorem exists_getLast_of_ne_nil {α : Type} (l : List α) (h : l ≠ []) :
    ∃ s, l.getLast? = some s := by
  cases hl : l.getLast? with
  | none => exact absurd (List.getLast?_eq_none_iff.mp hl) h
  | some s => exact ⟨s, rfl⟩

theorem chainExt_getElem (idx gen : Nat) (k j : Nat) :
    ∀ s : Secret, j < k → (chainExt idx gen s k)[j]? = some (chainLast idx gen s (j + 1)) := by
  induction k generalizing j with
  | zero => intro s h; omega
  | succ n ih =>
    intro s h
    cases j with
    | zero => simp [chainExt, chainLast]
    | succ m =>
      have := ih m (chainStep idx gen s) (by omega)
      simpa [chainExt, chainLast] using this

theorem getElem?_lastN {α : Type} (m : Nat) (l : List α) (j : Nat) :
    (lastN m l)[j]? = l[l.length - m + j]? := by
  simp [lastN, List.getElem?_drop]

theorem ratchetOK_preserved (r : SenderRatchet) (g : Nat)
    (res : Except ASError ApplicationSecrets) (r2 : SenderRatchet)
    (hok : ratchetOK (some r)) (h : r.get_secret g = some (res, r2)) :
    ratchetOK (some r2) := by
  have hlen : r.past_secrets.length = min OUT_OF_ORDER_TOLERANCE (r.generation + 1) := hok
  have htol : OUT_OF_ORDER_TOLERANCE = 5 := rfl
  by_cases hf : g > r.generation + MAXIMUM_FORWARD_DISTANCE
  · rw [get_secret_future r g hf] at h
    simp at h
    rw [← h.2]
    exact hok
  · by_cases hp : g < r.generation ∧ r.generation - g ≥ OUT_OF_ORDER_TOLERANCE
    · rw [get_secret_past r g hp.1 hp.2] at h
      simp at h
      rw [← h.2]
      exact hok
    · by_cases hle : g ≤ r.generation
      · obtain ⟨sec, hsec, heq⟩ := get_secret_window r g hle (by omega) (by omega)
        rw [heq] at h
        simp at h
        rw [← h.2]
        exact hok
      · have hne : r.past_secrets ≠ [] := by
          intro hnil
          rw [hnil] at hlen
          simp at hlen
          omega
        obtain ⟨s, hs⟩ := exists_getLast_of_ne_nil _ hne
        rw [get_secret_advance r g s (by omega) (by omega) hs (by omega)] at h
        simp at h
        rw [← h.2]
        show (lastN OUT_OF_ORDER_TOLERANCE _).length = _
        rw [length_lastN]
        simp only [List.length_append, length_chainExt]
        omega

/-- C2.  During a forward advance of `SenderRatchet::get_secret`, every
one of the `requested − current` chain steps is an `"app-secret"`
derivation whose context generation equals the pre-advance generation
`r.generation` (the field is not incremented between steps), while the
final `"app-key"` and `"app-nonce"` derivations use context generation
`requested`; the ratchet's `generation` field equals `requested` only in
the post-state, i.e. it is updated after the key and nonce are
derived. -/
theorem advance_chain_context_C2 (r : SenderRatchet) (g : Nat) (s : Secret)
    (h1 : r.generation < g) (h2 : g ≤ r.generation + MAXIMUM_FORWARD_DISTANCE)
    (hs : r.past_secrets.getLast? = some s)
    (hlen : r.past_secrets.length ≤ OUT_OF_ORDER_TOLERANCE) :
    r.get_secret g = some
      (Except.ok
        { nonce := Secret.derived (chainLast r.index r.generation s (g - r.generation))
            "app-nonce" r.index g,
          key := Secret.derived (chainLast r.index r.generation s (g - r.generation))
            "app-key" r.index g },
        { r with generation := g,
                 past_secrets := lastN OUT_OF_ORDER_TOLERANCE
                   (r.past_secrets ++ chainExt r.index r.generation s (g - r.generation)) }) ∧
    (∀ x ∈ chainExt r.index r.generation s (g - r.generation),
      ∃ p, x = Secret.derived p "app-secret" r.index r.generation) := by
  refine ⟨?_, chainExt_labels r.index r.generation s (g - r.generation)⟩
  exact get_secret_advance r g s h1 h2 hs hlen

theorem advance_chain_context_C2_witness :
    ((SenderRatchet.new 7 appSecret0 cs0).get_secret 3).isSome = true := by
  have h := advance_chain_context_C2 (SenderRatchet.new 7 appSecret0 cs0) 3 appSecret0
    (by decide) (by decide) (by decide) (by decide)
  rw [h.1]
  rfl

/-- C5.  Whenever `SenderRatchet::get_secret` returns an error
(`TooDistantInTheFuture` or `TooDistantInThePast`), the ratchet's
`generation` field and its `past_secrets` window are exactly as they
were before the call; they are modified only on the successful advance
branch. -/
theorem ratchet_error_preserves_state_C5 (r : SenderRatchet) (g : Nat) (e : ASError)
    (r2 : SenderRatchet) (h : r.get_secret g = some (Except.error e, r2)) :
    r2.generation = r.generation ∧ r2.past_secrets = r.past_secrets := by
  have := get_secret_error_no_mutation r g e r2 h
  rw [this]
  exact ⟨rfl, rfl⟩

theorem ratchet_error_preserves_state_C5_witness :
    (SenderRatchet.mk cs0 0 1000 [appSecret0]).get_secret 995 =
      some (Except.error ASError.TooDistantInThePast, SenderRatchet.mk cs0 0 1000 [appSecret0]) ∧
    (SenderRatchet.mk cs0 0 1000 [appSecret0]).generation = 1000 := by
  have hdec : (SenderRatchet.mk cs0 0 1000 [appSecret0]).get_secret 995 =
      some (Except.error ASError.TooDistantInThePast, SenderRatchet.mk cs0 0 1000 [appSecret0]) := by
    decide
  have h := ratchet_error_preserves_state_C5 (SenderRatchet.mk cs0 0 1000 [appSecret0]) 995
    ASError.TooDistantInThePast (SenderRatchet.mk cs0 0 1000 [appSecret0]) hdec
  exact ⟨hdec, h.1⟩

/-!
## Tree-level helper lemmas
-/

theorem eta_set_self (t : ASTree) (i : Nat) (r : Option SenderRatchet)
    (h : t.sender_ratchets[i]? = some r) :
    { t with sender_ratchets := t.sender_ratchets.set i r } = t := by
  rw [list_set_self _ _ _ h]

theorem ratchetOK_at (t : ASTree) (i : Nat) (o : Option SenderRatchet)
    (hwf : t.WF) (h : t.sender_ratchets[i]? = some o) : ratchetOK o :=
  hwf.2 o (List.getElem?_mem h)

/-- C6.  A lookup of a generation `g` that is at most the ratchet's
current generation and within the out-of-order window returns
successfully and leaves the tree (hence the ratchet and
`get_generation`) completely unchanged; consequently calling it twice
returns the identical key and nonce both times. -/
theorem window_lookup_pure_C6 (t : ASTree) (i g : Nat) (r : SenderRatchet)
    (hwf : t.WF) (hi : i < t.size)
    (hr : t.sender_ratchets[i]? = some (some r))
    (hle : g ≤ r.generation) (hwin : r.generation - g < OUT_OF_ORDER_TOLERANCE) :
    ∃ a, t.get_secret i g = some (Except.ok a, t) ∧
      t.get_generation i = some r.generation := by
  have hok : r.past_secrets.length = min OUT_OF_ORDER_TOLERANCE (r.generation + 1) :=
    ratchetOK_at t i (some r) hwf hr
  have htol : OUT_OF_ORDER_TOLERANCE = 5 := rfl
  obtain ⟨sec, hsec, heq⟩ := get_secret_window r g hle hwin (by omega)
  have hset := list_set_self t.sender_ratchets i (some r) hr
  refine ⟨r.derive_key_nonce sec g, ?_, ?_⟩
  · simp only [ASTree.get_secret, if_neg (by omega : ¬i ≥ t.size), hr, heq, hset]
  · rw [ASTree.get_generation, hr]

theorem window_lookup_pure_C6_witness :
    (ASTree.mk cs0 [none] [some (SenderRatchet.mk cs0 0 0 [appSecret0])] 1).get_secret 0 0 =
      some (Except.ok (ApplicationSecrets.mk (Secret.derived appSecret0 "app-nonce" 0 0)
          (Secret.derived appSecret0 "app-key" 0 0)),
        ASTree.mk cs0 [none] [some (SenderRatchet.mk cs0 0 0 [appSecret0])] 1) ∧
    (ASTree.mk cs0 [none] [some (SenderRatchet.mk cs0 0 0 [appSecret0])] 1).get_generation 0 =
      some 0 := by
  obtain ⟨a, h1, h2⟩ := window_lookup_pure_C6
    (ASTree.mk cs0 [none] [some (SenderRatchet.mk cs0 0 0 [appSecret0])] 1) 0 0
    (SenderRatchet.mk cs0 0 0 [appSecret0]) (by decide) (by decide) (by decide) (by decide)
    (by decide)
  exact ⟨by decide, h2⟩

/-- C9.  `ASTree::get_generation` indexes `sender_ratchets` without a
bounds check: for `sender < size` it is total and returns the ratchet's
generation when one exists and `0` otherwise (the value `genAt`), but
for `sender ≥ size` the access is out of bounds and the call panics
(modelled as `none`), whereas `ASTree::get_secret` returns
`IndexOutOfBounds` for the same argument. -/
theorem get_generation_no_bounds_check_C9 (t : ASTree)
    (hwf : t.sender_ratchets.length = t.size) :
    (∀ i, i < t.size → t.get_generation i = some (genAt t i)) ∧
    (∀ i, i ≥ t.size → t.get_generation i = none) ∧
    (∀ i g, i ≥ t.size → t.get_secret i g = some (Except.error ASError.IndexOutOfBounds, t)) := by
  refine ⟨?_, ?_, ?_⟩
  · intro i hi
    have hlt : i < t.sender_ratchets.length := by omega
    have h := List.getElem?_eq_getElem hlt
    cases ho : t.sender_ratchets[i] with
    | none => rw [ASTree.get_generation, h, ho, genAt, h, ho]
    | some r => rw [ASTree.get_generation, h, ho, genAt, h, ho]
  · intro i hi
    have h : t.sender_ratchets[i]? = none := List.getElem?_eq_none (by omega)
    rw [ASTree.get_generation, h]
  · intro i g hi
    rw [ASTree.get_secret, if_pos hi]

theorem get_generation_no_bounds_check_C9_witness :
    (ASTree.new cs0 appSecret0 2).get_generation 1 = some 0 ∧
    (ASTree.new cs0 appSecret0 2).get_generation 2 = none ∧
    (ASTree.new cs0 appSecret0 2).get_secret 2 0 =
      some (Except.error ASError.IndexOutOfBounds, ASTree.new cs0 appSecret0 2) := by
  obtain ⟨h1, h2, h3⟩ := get_generation_no_bounds_check_C9 (ASTree.new cs0 appSecret0 2)
    (by decide)
  exact ⟨(h1 1 (by decide)).trans (by decide), h2 2 (by decide), h3 2 0 (by decide)⟩

theorem hash_down_fields (t : ASTree) (x : Nat) (t2 : ASTree) (h : t.hash_down x = some t2) :
    t2.sender_ratchets = t.sender_ratchets ∧ t2.size = t.size ∧
      t2.ciphersuite = t.ciphersuite ∧ t2.nodes.length = t.nodes.length := by
  rw [ASTree.hash_down] at h
  split at h
  · exact absurd h (by simp)
  · exact absurd h (by simp)
  · dsimp only at h
    split at h
    · have := Option.some.inj h
      rw [← this]
      exact ⟨rfl, rfl, rfl, by simp⟩
    · exact absurd h (by simp)

theorem hashDownAll_fields (L : List Nat) : ∀ (t t2 : ASTree), t.hashDownAll L = some t2 →
    t2.sender_ratchets = t.sender_ratchets ∧ t2.size = t.size ∧
      t2.ciphersuite = t.ciphersuite ∧ t2.nodes.length = t.nodes.length := by
  induction L with
  | nil =>
    intro t t2 h
    rw [ASTree.hashDownAll] at h
    rw [← Option.some.inj h]
    exact ⟨rfl, rfl, rfl, rfl⟩
  | cons x rest ih =>
    intro t t2 h
    rw [ASTree.hashDownAll] at h
    split at h
    · exact absurd h (by simp)
    · rename_i tmid hmid
      obtain ⟨h1, h2, h3, h4⟩ := ih tmid t2 h
      obtain ⟨g1, g2, g3, g4⟩ := hash_down_fields t x tmid hmid
      exact ⟨h1.trans g1, h2.trans g2, h3.trans g3, h4.trans g4⟩

theorem materializeLeaf_fields (t : ASTree) (i : Nat) (t2 : ASTree) (s : Secret)
    (h : t.materializeLeaf i = some (t2, s)) :
    t2.sender_ratchets = t.sender_ratchets ∧ t2.size = t.size ∧
      t2.ciphersuite = t.ciphersuite ∧ t2.nodes.length = t.nodes.length := by
  rw [ASTree.materializeLeaf] at h
  split at h
  · exact absurd h (by simp)
  · split at h
    · exact absurd h (by simp)
    · rename_i tmid hmid
      split at h
      · have := Option.some.inj h
        cases this
        exact hashDownAll_fields _ t _ hmid
      · exact absurd h (by simp)

theorem advanced_entry (r : SenderRatchet) (g : Nat) (s : Secret)
    (hok : ratchetOK (some r)) (hs : r.past_secrets.getLast? = some s)
    (h4 : r.generation + 4 ≤ g) :
    (lastN OUT_OF_ORDER_TOLERANCE
        (r.past_secrets ++ chainExt r.index r.generation s (g - r.generation))).length = 5 ∧
    (lastN OUT_OF_ORDER_TOLERANCE
        (r.past_secrets ++ chainExt r.index r.generation s (g - r.generation)))[0]? =
      some (chainLast r.index r.generation s (g - 4 - r.generation)) := by
  have hlen : r.past_secrets.length = min OUT_OF_ORDER_TOLERANCE (r.generation + 1) := hok
  have htol : OUT_OF_ORDER_TOLERANCE = 5 := rfl
  have hLlen : (r.past_secrets ++ chainExt r.index r.generation s (g - r.generation)).length =
      r.past_secrets.length + (g - r.generation) := by
    simp [length_chainExt]
  have hfive : (lastN OUT_OF_ORDER_TOLERANCE
      (r.past_secrets ++ chainExt r.index r.generation s (g - r.generation))).length = 5 := by
    rw [length_lastN, hLlen]
    omega
  refine ⟨hfive, ?_⟩
  rw [getElem?_lastN, hLlen]
  by_cases hk : g - r.generation = 4
  · have hidx : r.past_secrets.length + (g - r.generation) - OUT_OF_ORDER_TOLERANCE + 0 <
        r.past_secrets.length := by omega
    rw [List.getElem?_append, if_pos hidx]
    have hgl : r.past_secrets[r.past_secrets.length - 1]? = some s := by
      rw [← List.getLast?_eq_getElem?]
      exact hs
    have hi : r.past_secrets.length + (g - r.generation) - OUT_OF_ORDER_TOLERANCE + 0 =
        r.past_secrets.length - 1 := by omega
    rw [hi, hgl]
    have : g - 4 - r.generation = 0 := by omega
    rw [this]
    rfl
  · have hk5 : 5 ≤ g - r.generation := by omega
    have hidx : r.past_secrets.length ≤
        r.past_secrets.length + (g - r.generation) - OUT_OF_ORDER_TOLERANCE + 0 := by omega
    rw [List.getElem?_append_right hidx]
    have hi : r.past_secrets.length + (g - r.generation) - OUT_OF_ORDER_TOLERANCE + 0 -
        r.past_secrets.length = g - r.generation - 5 := by omega
    rw [hi, chainExt_getElem r.index r.generation (g - r.generation) (g - r.generation - 5) s
      (by omega)]
    have : g - r.generation - 5 + 1 = g - 4 - r.generation := by omega
    rw [this]

theorem ratchet_reach_back (r : SenderRatchet) (g : Nat) (s : Secret)
    (hok : ratchetOK (some r)) (hs : r.past_secrets.getLast? = some s)
    (hg5 : 5 ≤ g) (h4 : r.generation + 4 ≤ g)
    (hub : g ≤ r.generation + MAXIMUM_FORWARD_DISTANCE) :
    ∃ r2 a4,
      r.get_secret g = some (Except.ok
        (r.derive_key_nonce (chainLast r.index r.generation s (g - r.generation)) g), r2) ∧
      r2.get_secret (g - 4) = some (Except.ok a4, r2) ∧
      (∃ r3, r.get_secret (g - 4) = some (Except.ok a4, r3)) ∧
      r2.get_secret (g - 5) = some (Except.error ASError.TooDistantInThePast, r2) := by
  have hlen : r.past_secrets.length = min OUT_OF_ORDER_TOLERANCE (r.generation + 1) := hok
  have htol : OUT_OF_ORDER_TOLERANCE = 5 := rfl
  have hadv := get_secret_advance r g s (by omega) hub hs (by omega)
  obtain ⟨hfive, hentry⟩ := advanced_entry r g s hok hs h4
  refine ⟨_, r.derive_key_nonce (chainLast r.index r.generation s (g - 4 - r.generation)) (g - 4),
    hadv, ?_, ?_, ?_⟩
  · obtain ⟨sec, hsec, heq2⟩ := get_secret_window
      { r with generation := g,
               past_secrets := lastN OUT_OF_ORDER_TOLERANCE
                 (r.past_secrets ++ chainExt r.index r.generation s (g - r.generation)) }
      (g - 4) (by show g - 4 ≤ g; omega) (by show g - (g - 4) < OUT_OF_ORDER_TOLERANCE; omega)
      (by show g - (g - 4) + 1 ≤ (lastN _ _).length; rw [hfive]; omega)
    have hfix : (lastN OUT_OF_ORDER_TOLERANCE
        (r.past_secrets ++ chainExt r.index r.generation s (g - r.generation))).length -
        (g - (g - 4)) - 1 = 0 := by
      rw [hfive]; omega
    simp only [hfix] at hsec
    rw [hentry] at hsec
    have hsec2 : sec = chainLast r.index r.generation s (g - 4 - r.generation) :=
      (Option.some.inj hsec).symm
    rw [heq2, hsec2]
    rfl
  · by_cases hc : r.generation = g - 4
    · obtain ⟨sec, hsec, heq3⟩ := get_secret_window r (g - 4) (by omega) (by omega) (by omega)
      have hfix : r.past_secrets.length - (r.generation - (g - 4)) - 1 =
          r.past_secrets.length - 1 := by omega
      rw [hfix] at hsec
      have hgl : r.past_secrets[r.past_secrets.length - 1]? = some s := by
        rw [← List.getLast?_eq_getElem?]; exact hs
      rw [hgl] at hsec
      have hsec2 : sec = s := (Option.some.inj hsec).symm
      have hcl : chainLast r.index r.generation s (g - 4 - r.generation) = s := by
        have : g - 4 - r.generation = 0 := by omega
        rw [this]
        rfl
      rw [hcl]
      exact ⟨r, by rw [heq3, hsec2]⟩
    · have hadv4 := get_secret_advance r (g - 4) s (by omega) (by omega) hs (by omega)
      exact ⟨_, hadv4⟩
  · exact get_secret_past _ (g - 5) (by simp; omega) (by simp; omega)

theorem get_secret_delegate_eq (t : ASTree) (i g : Nat) (r : SenderRatchet)
    (hige : ¬i ≥ t.size) (hslot : t.sender_ratchets[i]? = some (some r)) :
    t.get_secret i g =
      match r.get_secret g with
      | none => none
      | some (res, r2) =>
        some (res, { t with sender_ratchets := t.sender_ratchets.set i (some r2) }) := by
  rw [ASTree.get_secret, if_neg hige, hslot]

theorem get_secret_materialize_eq (t : ASTree) (i g : Nat) (hige : ¬i ≥ t.size)
    (hslot : t.sender_ratchets[i]? = some none ∨ t.sender_ratchets[i]? = none) :
    t.get_secret i g =
      match t.materializeLeaf i with
      | none => none
      | some (t2, node_secret) =>
        match (SenderRatchet.new i node_secret t.ciphersuite).get_secret g with
        | none => none
        | some (res, r2) =>
          some (res, { t2 with
            nodes := t2.nodes.set (2 * i) none,
            sender_ratchets := t2.sender_ratchets.set i (some r2) }) := by
  rcases hslot with h | h
  · rw [ASTree.get_secret, if_neg hige, h]
  · rw [ASTree.get_secret, if_neg hige, h]

theorem get_secret_delegate_some (t : ASTree) (i g : Nat) (r : SenderRatchet)
    (res : Except ASError ApplicationSecrets) (r2 : SenderRatchet)
    (hige : ¬i ≥ t.size) (hslot : t.sender_ratchets[i]? = some (some r))
    (hr : r.get_secret g = some (res, r2)) :
    t.get_secret i g =
      some (res, { t with sender_ratchets := t.sender_ratchets.set i (some r2) }) := by
  rw [get_secret_delegate_eq t i g r hige hslot, hr]

theorem get_secret_materialize_some (t : ASTree) (i g : Nat) (tm : ASTree) (sec : Secret)
    (res : Except ASError ApplicationSecrets) (r2 : SenderRatchet)
    (hige : ¬i ≥ t.size)
    (hslot : t.sender_ratchets[i]? = some none ∨ t.sender_ratchets[i]? = none)
    (hm : t.materializeLeaf i = some (tm, sec))
    (hr : (SenderRatchet.new i sec t.ciphersuite).get_secret g = some (res, r2)) :
    t.get_secret i g =
      some (res, { tm with
        nodes := tm.nodes.set (2 * i) none,
        sender_ratchets := tm.sender_ratchets.set i (some r2) }) := by
  rw [get_secret_materialize_eq t i g hige hslot, hm]
  show (match (SenderRatchet.new i sec t.ciphersuite).get_secret g with
    | none => none
    | some (res, r2) =>
      some (res, { tm with
        nodes := tm.nodes.set (2 * i) none,
        sender_ratchets := tm.sender_ratchets.set i (some r2) })) = _
  rw [hr]

theorem reach_back_mater_aux (t : ASTree) (i g : Nat) (a : ApplicationSecrets) (t2 : ASTree)
    (hwf : t.WF) (hg5 : 5 ≤ g) (hige : ¬i ≥ t.size)
    (hslot : t.sender_ratchets[i]? = some none ∨ t.sender_ratchets[i]? = none)
    (h : t.get_secret i g = some (Except.ok a, t2)) :
    ∃ a4 t3,
      t2.get_secret i (g - 4) = some (Except.ok a4, t2) ∧
      t.get_secret i (g - 4) = some (Except.ok a4, t3) ∧
      t2.get_secret i (g - 5) = some (Except.error ASError.TooDistantInThePast, t2) := by
  have hmfd : MAXIMUM_FORWARD_DISTANCE = 1000 := rfl
  cases hm : t.materializeLeaf i with
  | none =>
    rw [get_secret_materialize_eq t i g hige hslot, hm] at h
    simp at h
  | some pair =>
    obtain ⟨tm, sec⟩ := pair
    have hok0 : ratchetOK (some (SenderRatchet.new i sec t.ciphersuite)) := rfl
    have hs0 : (SenderRatchet.new i sec t.ciphersuite).past_secrets.getLast? = some sec := rfl
    have hub0 : g ≤ (SenderRatchet.new i sec t.ciphersuite).generation +
        MAXIMUM_FORWARD_DISTANCE := by
      by_contra hfut
      rw [get_secret_materialize_some t i g tm sec _ _ hige hslot hm
        (get_secret_future (SenderRatchet.new i sec t.ciphersuite) g (by omega))] at h
      simp at h
    obtain ⟨r2, a4, hcall, hwin2, ⟨r3, hdir⟩, hpast⟩ :=
      ratchet_reach_back (SenderRatchet.new i sec t.ciphersuite) g sec hok0 hs0 hg5
        (by show 0 + 4 ≤ g; omega) hub0
    rw [get_secret_materialize_some t i g tm sec _ r2 hige hslot hm hcall] at h
    simp only [Option.some.injEq, Prod.mk.injEq, Except.ok.injEq] at h
    obtain ⟨ha, ht2⟩ := h
    obtain ⟨hrat, hsz, hcs, hnlen⟩ := materializeLeaf_fields t i tm sec hm
    have hsize2 : t2.size = t.size := by
      rw [← ht2]
      show tm.size = t.size
      exact hsz
    have hslot2 : t2.sender_ratchets[i]? = some (some r2) := by
      rw [← ht2]
      show (tm.sender_ratchets.set i (some r2))[i]? = some (some r2)
      rw [List.getElem?_set_self]
      rw [hrat, hwf.1]
      omega
    have h1 := get_secret_delegate_some t2 i (g - 4) r2 _ r2 (by omega) hslot2 hwin2
    rw [eta_set_self t2 i (some r2) hslot2] at h1
    have h2 := get_secret_materialize_some t i (g - 4) tm sec _ r3 hige hslot hm hdir
    have h3 := get_secret_delegate_some t2 i (g - 5) r2 _ r2 (by omega) hslot2 hpast
    rw [eta_set_self t2 i (some r2) hslot2] at h3
    exact ⟨a4, _, h1, h2, h3⟩

/-- C3.  After a successful `get_secret(i, g)` that advances the
ratchet's generation to `g ≥ 5` (pre-call generation at most `g − 4`),
`get_secret(i, g − 4)` succeeds, leaves the tree unchanged, and returns
exactly the `(key, nonce)` pair that `get_secret(i, g − 4)` would have
returned on the pre-call tree (i.e. had `g − 4` been requested before
the later generation), while `get_secret(i, g − 5)` returns
`TooDistantInThePast`. -/
theorem reach_back_window_C3 (t : ASTree) (i g : Nat) (a : ApplicationSecrets) (t2 : ASTree)
    (hwf : t.WF) (hg5 : 5 ≤ g) (hgen : genAt t i + 4 ≤ g)
    (h : t.get_secret i g = some (Except.ok a, t2)) :
    ∃ a4 t3,
      t2.get_secret i (g - 4) = some (Except.ok a4, t2) ∧
      t.get_secret i (g - 4) = some (Except.ok a4, t3) ∧
      t2.get_secret i (g - 5) = some (Except.error ASError.TooDistantInThePast, t2) := by
  have hmfd : MAXIMUM_FORWARD_DISTANCE = 1000 := rfl
  by_cases hige : i ≥ t.size
  · rw [ASTree.get_secret, if_pos hige] at h
    simp at h
  cases hslot : t.sender_ratchets[i]? with
  | none => exact reach_back_mater_aux t i g a t2 hwf hg5 hige (Or.inr hslot) h
  | some o =>
    cases o with
    | none => exact reach_back_mater_aux t i g a t2 hwf hg5 hige (Or.inl hslot) h
    | some r =>
      have hgenr : genAt t i = r.generation := by rw [genAt, hslot]
      have hok : ratchetOK (some r) := ratchetOK_at t i (some r) hwf hslot
      have hlen : r.past_secrets.length = min OUT_OF_ORDER_TOLERANCE (r.generation + 1) := hok
      have htol : OUT_OF_ORDER_TOLERANCE = 5 := rfl
      have hne : r.past_secrets ≠ [] := by
        intro hx; rw [hx] at hlen; simp at hlen; omega
      obtain ⟨s, hs⟩ := exists_getLast_of_ne_nil _ hne
      have hub : g ≤ r.generation + MAXIMUM_FORWARD_DISTANCE := by
        by_contra hfut
        rw [get_secret_delegate_some t i g r _ _ hige hslot
          (get_secret_future r g (by omega))] at h
        simp at h
      obtain ⟨r2, a4, hcall, hwin2, ⟨r3, hdir⟩, hpast⟩ :=
        ratchet_reach_back r g s hok hs hg5 (by omega) hub
      rw [get_secret_delegate_some t i g r _ r2 hige hslot hcall] at h
      simp only [Option.some.injEq, Prod.mk.injEq, Except.ok.injEq] at h
      obtain ⟨ha, ht2⟩ := h
      have hsize2 : t2.size = t.size := by
        rw [← ht2]
      have hslot2 : t2.sender_ratchets[i]? = some (some r2) := by
        rw [← ht2]
        show (t.sender_ratchets.set i (some r2))[i]? = some (some r2)
        rw [List.getElem?_set_self]
        rw [hwf.1]
        omega
      have h1 := get_secret_delegate_some t2 i (g - 4) r2 _ r2 (by omega) hslot2 hwin2
      rw [eta_set_self t2 i (some r2) hslot2] at h1
      have h2 := get_secret_delegate_some t i (g - 4) r _ r3 hige hslot hdir
      have h3 := get_secret_delegate_some t2 i (g - 5) r2 _ r2 (by omega) hslot2 hpast
      rw [eta_set_self t2 i (some r2) hslot2] at h3
      exact ⟨a4, _, h1, h2, h3⟩

theorem reach_back_window_C3_witness :
    (ASTree.new cs0 appSecret0 1).get_secret 0 5 =
      some (Except.ok (ApplicationSecrets.mk
          (Secret.derived (chainLast 0 0 appSecret0 5) "app-nonce" 0 5)
          (Secret.derived (chainLast 0 0 appSecret0 5) "app-key" 0 5)),
        ASTree.mk cs0 [none] [some (SenderRatchet.mk cs0 0 5 (chainExt 0 0 appSecret0 5))] 1) ∧
    (ASTree.mk cs0 [none] [some (SenderRatchet.mk cs0 0 5 (chainExt 0 0 appSecret0 5))] 1).get_secret
        0 1 =
      some (Except.ok (ApplicationSecrets.mk
          (Secret.derived (chainLast 0 0 appSecret0 1) "app-nonce" 0 1)
          (Secret.derived (chainLast 0 0 appSecret0 1) "app-key" 0 1)),
        ASTree.mk cs0 [none] [some (SenderRatchet.mk cs0 0 5 (chainExt 0 0 appSecret0 5))] 1) := by
  have hd : (ASTree.new cs0 appSecret0 1).get_secret 0 5 =
      some (Except.ok (ApplicationSecrets.mk
          (Secret.derived (chainLast 0 0 appSecret0 5) "app-nonce" 0 5)
          (Secret.derived (chainLast 0 0 appSecret0 5) "app-key" 0 5)),
        ASTree.mk cs0 [none] [some (SenderRatchet.mk cs0 0 5 (chainExt 0 0 appSecret0 5))] 1) := by
    decide
  obtain ⟨a4, t3, h1, h2, h3⟩ := reach_back_window_C3 (ASTree.new cs0 appSecret0 1) 0 5 _ _
    (by decide) (by decide) (by decide) hd
  have hd1 : (ASTree.mk cs0 [none]
      [some (SenderRatchet.mk cs0 0 5 (chainExt 0 0 appSecret0 5))] 1).get_secret 0 1 =
      some (Except.ok (ApplicationSecrets.mk
          (Secret.derived (chainLast 0 0 appSecret0 1) "app-nonce" 0 1)
          (Secret.derived (chainLast 0 0 appSecret0 1) "app-key" 0 1)),
        ASTree.mk cs0 [none] [some (SenderRatchet.mk cs0 0 5 (chainExt 0 0 appSecret0 5))] 1) := by
    decide
  have h1' : (ASTree.mk cs0 [none]
      [some (SenderRatchet.mk cs0 0 5 (chainExt 0 0 appSecret0 5))] 1).get_secret 0 1 =
      some (Except.ok a4,
        ASTree.mk cs0 [none] [some (SenderRatchet.mk cs0 0 5 (chainExt 0 0 appSecret0 5))] 1) := h1
  have haa : a4 = ApplicationSecrets.mk
      (Secret.derived (chainLast 0 0 appSecret0 1) "app-nonce" 0 1)
      (Secret.derived (chainLast 0 0 appSecret0 1) "app-key" 0 1) := by
    have hcmp := h1'.symm.trans hd1
    simpa using hcmp
  exact ⟨hd, haa ▸ h1'⟩

theorem fresh_ratchet_success (i : Nat) (sec : Secret) (cs : CipherSuite) (g : Nat)
    (hg : g ≤ MAXIMUM_FORWARD_DISTANCE) :
    ∃ a r2, (SenderRatchet.new i sec cs).get_secret g = some (Except.ok a, r2) := by
  by_cases hz : g = 0
  · subst hz
    obtain ⟨s, hsec, heq⟩ := get_secret_window (SenderRatchet.new i sec cs) 0
      (Nat.le_refl 0) (by show 0 - 0 < OUT_OF_ORDER_TOLERANCE; decide)
      (by show 0 - 0 + 1 ≤ 1; omega)
    exact ⟨_, _, heq⟩
  · have hmfd : MAXIMUM_FORWARD_DISTANCE = 1000 := rfl
    have := get_secret_advance (SenderRatchet.new i sec cs) g sec
      (by show 0 < g; omega) (by show g ≤ 0 + MAXIMUM_FORWARD_DISTANCE; omega) rfl
      (by show 1 ≤ OUT_OF_ORDER_TOLERANCE; decide)
    exact ⟨_, _, this⟩

/-- C10.  A `get_secret(i, g)` call on a leaf with no ratchet and
`g > MAXIMUM_FORWARD_DISTANCE` returns `TooDistantInTheFuture` but still
mutates the tree: the lazy path materialization runs, the leaf slot is
erased, and a fresh generation-0 ratchet is installed at `i`, so
`get_generation(i)` is `some 0` afterwards and any later request with a
valid generation succeeds against the installed ratchet without touching
the node array again. -/
theorem future_error_still_materializes_C10 (t : ASTree) (i g : Nat) (tm : ASTree)
    (sec : Secret) (hige : ¬i ≥ t.size)
    (hslot : t.sender_ratchets[i]? = some none)
    (hlen : t.sender_ratchets.length = t.size)
    (hg : g > MAXIMUM_FORWARD_DISTANCE)
    (hm : t.materializeLeaf i = some (tm, sec)) :
    ∃ T, t.get_secret i g = some (Except.error ASError.TooDistantInTheFuture, T) ∧
      T.nodes = tm.nodes.set (2 * i) none ∧
      T.sender_ratchets = tm.sender_ratchets.set i
        (some (SenderRatchet.new i sec t.ciphersuite)) ∧
      T.get_generation i = some 0 ∧
      ∀ g2, g2 ≤ MAXIMUM_FORWARD_DISTANCE → ∃ a T2,
        T.get_secret i g2 = some (Except.ok a, T2) ∧ T2.nodes = T.nodes := by
  obtain ⟨hrat, hsz, hcs, hnlen⟩ := materializeLeaf_fields t i tm sec hm
  have hfut := get_secret_future (SenderRatchet.new i sec t.ciphersuite) g
    (by show g > 0 + MAXIMUM_FORWARD_DISTANCE; omega)
  have main := get_secret_materialize_some t i g tm sec _ _ hige (Or.inl hslot) hm hfut
  have hslotT : ({ tm with
      nodes := tm.nodes.set (2 * i) none,
      sender_ratchets := tm.sender_ratchets.set i
        (some (SenderRatchet.new i sec t.ciphersuite)) } : ASTree).sender_ratchets[i]? =
      some (some (SenderRatchet.new i sec t.ciphersuite)) := by
    show (tm.sender_ratchets.set i (some (SenderRatchet.new i sec t.ciphersuite)))[i]? = _
    rw [List.getElem?_set_self]
    rw [hrat, hlen]
    omega
  refine ⟨_, main, rfl, rfl, ?_, ?_⟩
  · rw [ASTree.get_generation, hslotT]
    rfl
  · intro g2 hg2
    obtain ⟨a, r2, hcall⟩ := fresh_ratchet_success i sec t.ciphersuite g2 hg2
    have hdel := get_secret_delegate_some _ i g2 _ _ r2
      (by show ¬i ≥ tm.size; omega) hslotT hcall
    exact ⟨a, _, hdel, rfl⟩

theorem future_error_still_materializes_C10_witness :
    (ASTree.new cs0 appSecret0 4).get_secret 0 1001 =
      some (Except.error ASError.TooDistantInTheFuture, ASTree.mk cs0
        [none, none,
         some (ASTreeNode.mk (Secret.derived (Secret.derived appSecret0 "tree" 1 0) "tree" 2 0)),
         none, none,
         some (ASTreeNode.mk (Secret.derived appSecret0 "tree" 5 0)),
         none]
        [some (SenderRatchet.new 0
          (Secret.derived (Secret.derived appSecret0 "tree" 1 0) "tree" 0 0) cs0),
         none, none, none] 4) ∧
    (ASTree.mk cs0
        [none, none,
         some (ASTreeNode.mk (Secret.derived (Secret.derived appSecret0 "tree" 1 0) "tree" 2 0)),
         none, none,
         some (ASTreeNode.mk (Secret.derived appSecret0 "tree" 5 0)),
         none]
        [some (SenderRatchet.new 0
          (Secret.derived (Secret.derived appSecret0 "tree" 1 0) "tree" 0 0) cs0),
         none, none, none] 4).get_generation 0 = some 0 ∧
    ((ASTree.mk cs0
        [none, none,
         some (ASTreeNode.mk (Secret.derived (Secret.derived appSecret0 "tree" 1 0) "tree" 2 0)),
         none, none,
         some (ASTreeNode.mk (Secret.derived appSecret0 "tree" 5 0)),
         none]
        [some (SenderRatchet.new 0
          (Secret.derived (Secret.derived appSecret0 "tree" 1 0) "tree" 0 0) cs0),
         none, none, none] 4).get_secret 0 7).map
      (fun p => p.1.isOk && decide (p.2.nodes = [none, none,
         some (ASTreeNode.mk (Secret.derived (Secret.derived appSecret0 "tree" 1 0) "tree" 2 0)),
         none, none,
         some (ASTreeNode.mk (Secret.derived appSecret0 "tree" 5 0)),
         none])) = some true := by
  have hm : (ASTree.new cs0 appSecret0 4).materializeLeaf 0 = some (ASTree.mk cs0
      [some (ASTreeNode.mk (Secret.derived (Secret.derived appSecret0 "tree" 1 0) "tree" 0 0)),
       none,
       some (ASTreeNode.mk (Secret.derived (Secret.derived appSecret0 "tree" 1 0) "tree" 2 0)),
       none, none,
       some (ASTreeNode.mk (Secret.derived appSecret0 "tree" 5 0)),
       none]
      [none, none, none, none] 4,
     Secret.derived (Secret.derived appSecret0 "tree" 1 0) "tree" 0 0) := by decide
  obtain ⟨T, h1, h2, h3, h4, h5⟩ := future_error_still_materializes_C10
    (ASTree.new cs0 appSecret0 4) 0 1001 _ _ (by decide) (by decide) (by decide) (by decide) hm
  have hd : (ASTree.new cs0 appSecret0 4).get_secret 0 1001 =
      some (Except.error ASError.TooDistantInTheFuture, ASTree.mk cs0
        [none, none,
         some (ASTreeNode.mk (Secret.derived (Secret.derived appSecret0 "tree" 1 0) "tree" 2 0)),
         none, none,
         some (ASTreeNode.mk (Secret.derived appSecret0 "tree" 5 0)),
         none]
        [some (SenderRatchet.new 0
          (Secret.derived (Secret.derived appSecret0 "tree" 1 0) "tree" 0 0) cs0),
         none, none, none] 4) := by decide
  have hT : T = ASTree.mk cs0
      [none, none,
       some (ASTreeNode.mk (Secret.derived (Secret.derived appSecret0 "tree" 1 0) "tree" 2 0)),
       none, none,
       some (ASTreeNode.mk (Secret.derived appSecret0 "tree" 5 0)),
       none]
      [some (SenderRatchet.new 0
        (Secret.derived (Secret.derived appSecret0 "tree" 1 0) "tree" 0 0) cs0),
       none, none, none] 4 := by
    have := h1.symm.trans hd
    simpa using this
  exact ⟨hd, hT ▸ h4, by decide⟩

/-- C1 counterexample.  The claim's final clause — after `get_secret(0,0)`
on a fresh size-4 tree "the other child of the root is the only live
node" — is false: the sibling leaf slot (tree index 2) is also live,
and 2 is not the other child of the root (tree index 5). -/
theorem first_touch_erasure_C1_counterexample :
    ¬ (∀ res T2, (ASTree.new cs0 appSecret0 4).get_secret 0 0 = some (res, T2) →
        ∀ j nd, T2.nodes[j]? = some (some nd) → j = (leftRight 4 (root 4)).2) := by
  intro h
  have hd : (ASTree.new cs0 appSecret0 4).get_secret 0 0 =
      some (Except.ok (ApplicationSecrets.mk
          (Secret.derived (Secret.derived (Secret.derived appSecret0 "tree" 1 0) "tree" 0 0)
            "app-nonce" 0 0)
          (Secret.derived (Secret.derived (Secret.derived appSecret0 "tree" 1 0) "tree" 0 0)
            "app-key" 0 0)),
        ASTree.mk cs0
          [none, none,
           some (ASTreeNode.mk (Secret.derived (Secret.derived appSecret0 "tree" 1 0) "tree" 2 0)),
           none, none,
           some (ASTreeNode.mk (Secret.derived appSecret0 "tree" 5 0)),
           none]
          [some (SenderRatchet.new 0
            (Secret.derived (Secret.derived appSecret0 "tree" 1 0) "tree" 0 0) cs0),
           none, none, none] 4) := by decide
  have h2 := h _ _ hd 2
    (ASTreeNode.mk (Secret.derived (Secret.derived appSecret0 "tree" 1 0) "tree" 2 0))
    (by decide)
  exact absurd h2 (by decide)

/-!
## Tree-math lemmas
-/

theorem dropLast_append_of_getLast {α : Type} (l : List α) (a : α) (h : l.getLast? = some a) :
    l.dropLast ++ [a] = l := by
  have hne : l ≠ [] := by intro hx; rw [hx] at h; simp at h
  have h2 := List.dropLast_append_getLast hne
  rw [List.getLast?_eq_getLast _ hne] at h
  rw [Option.some.inj h] at h2
  exact h2

theorem splitConcat {α : Type} (A : List α) (c : α) (pre suf : List α) (x : α)
    (h : A ++ [c] = pre ++ x :: suf) :
    (suf = [] ∧ x = c ∧ pre = A) ∨ (∃ suf2, suf = suf2 ++ [c] ∧ A = pre ++ x :: suf2) := by
  rcases List.eq_nil_or_concat suf with rfl | ⟨suf2, c2, hsuf⟩
  · obtain ⟨h1, h2⟩ := List.append_inj' h (by simp)
    exact Or.inl ⟨rfl, (List.cons.injEq _ _ _ _ ▸ h2).1.symm, h1.symm⟩
  · rw [List.concat_eq_append] at hsuf
    subst hsuf
    have h2 : A ++ [c] = (pre ++ x :: suf2) ++ [c2] := by
      rw [h]; simp
    obtain ⟨h3, h4⟩ := List.append_inj' h2 (by simp)
    have hc : c = c2 := by simpa using h4
    exact Or.inr ⟨suf2, by rw [hc], h3⟩

theorem mapSplit {α β : Type} (f : α → β) (l : List α) (pre suf : List β) (x : β)
    (h : l.map f = pre ++ x :: suf) :
    ∃ pre0 x0 suf0, l = pre0 ++ x0 :: suf0 ∧ pre = pre0.map f ∧ x = f x0 ∧
      suf = suf0.map f := by
  rw [List.map_eq_append_iff] at h
  obtain ⟨l1, l2, hl, h1, h2⟩ := h
  rw [List.map_eq_cons_iff] at h2
  obtain ⟨a, l3, hx, hfa, hmap⟩ := h2
  exact ⟨l1, a, l3, by rw [hl, hx], h1.symm, hfa.symm, hmap.symm⟩

theorem treeB_spec (m : Nat) :
    1 ≤ treeB (m + 2) ∧ treeB (m + 2) < m + 2 ∧ m + 2 ≤ 2 * treeB (m + 2) := by
  induction m with
  | zero => decide
  | succ k ih =>
    show 1 ≤ treeB (k + 3) ∧ treeB (k + 3) < k + 3 ∧ k + 3 ≤ 2 * treeB (k + 3)
    have : treeB (k + 3) = if 2 * treeB (k + 2) < k + 3 then 2 * treeB (k + 2)
        else treeB (k + 2) := rfl
    rw [this]
    split <;> omega

theorem treeB_facts (n : Nat) (h : 2 ≤ n) :
    1 ≤ treeB n ∧ treeB n < n ∧ n ≤ 2 * treeB n := by
  obtain ⟨m, rfl⟩ : ∃ m, n = m + 2 := ⟨n - 2, by omega⟩
  exact treeB_spec m

theorem root_lt (n : Nat) (h : 1 ≤ n) : root n < 2 * n - 1 := by
  rw [root]
  split
  · omega
  · rename_i h2
    have := treeB_facts n (by omega)
    omega

theorem root_eq_of_two_le (n : Nat) (h : 2 ≤ n) : root n = 2 * treeB n - 1 := by
  rw [root, if_neg (by omega)]

theorem pathUpF_left (f n x : Nat) (hn : 2 ≤ n) (hx : x < 2 * treeB n - 1) :
    pathUpF (f + 1) n x = pathUpF f (treeB n) x ++ [2 * treeB n - 1] := by
  show (if n ≤ 1 then [] else _) = _
  rw [if_neg (by omega)]
  dsimp only
  rw [if_pos hx]

theorem pathUpF_right (f n x : Nat) (hn : 2 ≤ n) (hx : ¬x < 2 * treeB n - 1) :
    pathUpF (f + 1) n x =
      (pathUpF f (n - treeB n) (x - 2 * treeB n)).map (fun y => 2 * treeB n + y) ++
        [2 * treeB n - 1] := by
  show (if n ≤ 1 then [] else _) = _
  rw [if_neg (by omega)]
  dsimp only
  rw [if_neg hx]

theorem leftRightF_root (f n : Nat) (hn : 2 ≤ n) :
    leftRightF (f + 1) n (2 * treeB n - 1) = (root (treeB n), 2 * treeB n + root (n - treeB n)) := by
  show (if n ≤ 1 then _ else _) = _
  rw [if_neg (by omega)]
  dsimp only
  rw [if_pos rfl]

theorem leftRightF_left (f n x : Nat) (hn : 2 ≤ n) (hx : x < 2 * treeB n - 1) :
    leftRightF (f + 1) n x = leftRightF f (treeB n) x := by
  show (if n ≤ 1 then _ else _) = _
  rw [if_neg (by omega)]
  dsimp only
  rw [if_neg (by omega), if_pos hx]

theorem leftRightF_right (f n x : Nat) (hn : 2 ≤ n) (hne : x ≠ 2 * treeB n - 1)
    (hx : ¬x < 2 * treeB n - 1) :
    leftRightF (f + 1) n x =
      (2 * treeB n + (leftRightF f (n - treeB n) (x - 2 * treeB n)).1,
       2 * treeB n + (leftRightF f (n - treeB n) (x - 2 * treeB n)).2) := by
  show (if n ≤ 1 then _ else _) = _
  rw [if_neg (by omega)]
  dsimp only
  rw [if_neg hne, if_neg hx]

theorem ancestorsF_root (f n : Nat) (hn : 2 ≤ n) :
    ancestorsF (f + 1) n (2 * treeB n - 1) = [] := by
  show (if n ≤ 1 then [] else _) = _
  rw [if_neg (by omega)]
  dsimp only
  rw [if_pos rfl]

theorem ancestorsF_left (f n x : Nat) (hn : 2 ≤ n) (hx : x < 2 * treeB n - 1) :
    ancestorsF (f + 1) n x = (2 * treeB n - 1) :: ancestorsF f (treeB n) x := by
  show (if n ≤ 1 then [] else _) = _
  rw [if_neg (by omega)]
  dsimp only
  rw [if_neg (by omega), if_pos hx]

theorem ancestorsF_right (f n x : Nat) (hn : 2 ≤ n) (hne : x ≠ 2 * treeB n - 1)
    (hx : ¬x < 2 * treeB n - 1) :
    ancestorsF (f + 1) n x =
      (2 * treeB n - 1) ::
        (ancestorsF f (n - treeB n) (x - 2 * treeB n)).map (fun y => 2 * treeB n + y) := by
  show (if n ≤ 1 then [] else _) = _
  rw [if_neg (by omega)]
  dsimp only
  rw [if_neg hne, if_neg hx]

theorem pathUpF_one (f x : Nat) : pathUpF f 1 x = [] := by
  cases f with
  | zero => rfl
  | succ k =>
    show (if (1 : Nat) ≤ 1 then ([] : List Nat) else _) = []
    rw [if_pos (by omega)]

theorem ancestorsF_one (f x : Nat) : ancestorsF f 1 x = [] := by
  cases f with
  | zero => rfl
  | succ k =>
    show (if (1 : Nat) ≤ 1 then ([] : List Nat) else _) = []
    rw [if_pos (by omega)]

theorem path_bounds : ∀ (f n i x : Nat), n ≤ f → i < n →
    x ∈ (2 * i :: pathUpF f n (2 * i)) → x < 2 * n - 1 := by
  intro f
  induction f with
  | zero => intro n i x hf hi _; omega
  | succ f ih =>
    intro n i x hf hi hx
    by_cases hn1 : n ≤ 1
    · have hn : n = 1 := by omega
      subst hn
      rw [pathUpF_one] at hx
      simp at hx
      omega
    · have hb := treeB_facts n (by omega)
      by_cases hib : i < treeB n
      · rw [pathUpF_left f n (2 * i) (by omega) (by omega)] at hx
        simp only [List.mem_cons, List.mem_append, List.mem_singleton] at hx
        rcases hx with rfl | hx | hlast
        · omega
        · have := ih (treeB n) i x (by omega) hib (List.mem_cons_of_mem _ hx)
          omega
        · have : x = 2 * treeB n - 1 := by simpa using hlast
          omega
      · rw [pathUpF_right f n (2 * i) (by omega) (by omega)] at hx
        simp only [List.mem_cons, List.mem_append, List.mem_map, List.mem_singleton] at hx
        rcases hx with rfl | ⟨y, hy, rfl⟩ | hlast
        · omega
        · have h2 : 2 * i - 2 * treeB n = 2 * (i - treeB n) := by omega
          rw [h2] at hy
          have := ih (n - treeB n) (i - treeB n) y (by omega) (by omega)
            (List.mem_cons_of_mem _ hy)
          omega
        · have : x = 2 * treeB n - 1 := by simpa using hlast
          omega

theorem path_last (f n i : Nat) (hf : n ≤ f) (hi : i < n) :
    (2 * i :: pathUpF f n (2 * i)).getLast? = some (root n) := by
  by_cases hn1 : n ≤ 1
  · have hn : n = 1 := by omega
    subst hn
    have hi0 : i = 0 := by omega
    subst hi0
    cases f with
    | zero => omega
    | succ k => rw [pathUpF_one]; rfl
  · have hb := treeB_facts n (by omega)
    obtain ⟨f2, rfl⟩ : ∃ f2, f = f2 + 1 := ⟨f - 1, by omega⟩
    rw [root_eq_of_two_le n (by omega)]
    by_cases hib : i < treeB n
    · rw [pathUpF_left f2 n (2 * i) (by omega) (by omega),
        show (2 * i :: (pathUpF f2 (treeB n) (2 * i) ++ [2 * treeB n - 1])) =
          (2 * i :: pathUpF f2 (treeB n) (2 * i)) ++ [2 * treeB n - 1] from by simp,
        List.getLast?_append_of_ne_nil _ (by simp)]
      rfl
    · rw [pathUpF_right f2 n (2 * i) (by omega) (by omega),
        show (2 * i :: ((pathUpF f2 (n - treeB n) (2 * i - 2 * treeB n)).map
            (fun y => 2 * treeB n + y) ++ [2 * treeB n - 1])) =
          (2 * i :: (pathUpF f2 (n - treeB n) (2 * i - 2 * treeB n)).map
            (fun y => 2 * treeB n + y)) ++ [2 * treeB n - 1] from by simp,
        List.getLast?_append_of_ne_nil _ (by simp)]
      rfl

theorem path_ancestors : ∀ (f n i g : Nat) (pre suf : List Nat) (x : Nat), n ≤ f → n ≤ g →
    i < n → (2 * i :: pathUpF f n (2 * i)) = pre ++ x :: suf →
    ancestorsF g n x = suf.reverse := by
  intro f
  induction f with
  | zero => intro n i g pre suf x hf hg hi _; omega
  | succ f ih =>
    intro n i g pre suf x hf hg hi hsplit
    by_cases hn1 : n ≤ 1
    · have hn : n = 1 := by omega
      subst hn
      have hi0 : i = 0 := by omega
      subst hi0
      rw [pathUpF_one] at hsplit
      cases pre with
      | nil =>
        simp at hsplit
        rw [← hsplit.1, hsplit.2, ancestorsF_one]
        rfl
      | cons p ps =>
        simp only [List.cons_append] at hsplit
        have h2 := List.cons.inj hsplit
        exact absurd h2.2.symm (by simp)
    · have hb := treeB_facts n (by omega)
      obtain ⟨g2, rfl⟩ : ∃ g2, g = g2 + 1 := ⟨g - 1, by omega⟩
      by_cases hib : i < treeB n
      · rw [pathUpF_left f n (2 * i) (by omega) (by omega)] at hsplit
        have hsplit2 : (2 * i :: pathUpF f (treeB n) (2 * i)) ++ [2 * treeB n - 1] =
            pre ++ x :: suf := by
          rw [← hsplit]; simp
        rcases splitConcat _ _ _ _ _ hsplit2 with ⟨rfl, rfl, rfl⟩ | ⟨suf2, rfl, hA⟩
        · rw [ancestorsF_root g2 n (by omega)]
          rfl
        · have hxmem : x ∈ 2 * i :: pathUpF f (treeB n) (2 * i) := by
            rw [hA]; simp
          have hxlt : x < 2 * treeB n - 1 :=
            path_bounds f (treeB n) i x (by omega) hib hxmem
          rw [ancestorsF_left g2 n x (by omega) hxlt,
            ih (treeB n) i g2 pre suf2 x (by omega) (by omega) hib hA]
          simp
      · rw [pathUpF_right f n (2 * i) (by omega) (by omega)] at hsplit
        have hQ : 2 * i :: ((pathUpF f (n - treeB n) (2 * i - 2 * treeB n)).map
            (fun y => 2 * treeB n + y) ++ [2 * treeB n - 1]) =
            ((2 * (i - treeB n) :: pathUpF f (n - treeB n) (2 * (i - treeB n))).map
              (fun y => 2 * treeB n + y)) ++ [2 * treeB n - 1] := by
          simp only [List.map_cons]
          rw [show 2 * treeB n + 2 * (i - treeB n) = 2 * i from by omega,
            show 2 * (i - treeB n) = 2 * i - 2 * treeB n from by omega]
          simp
        rw [hQ] at hsplit
        rcases splitConcat _ _ _ _ _ hsplit with ⟨rfl, rfl, rfl⟩ | ⟨suf2, rfl, hA⟩
        · rw [ancestorsF_root g2 n (by omega)]
          rfl
        · obtain ⟨pre0, x0, suf0, hQ0, hpre0, rfl, rfl⟩ := mapSplit _ _ _ _ _ hA
          have hanc0 := ih (n - treeB n) (i - treeB n) g2 pre0 suf0 x0 (by omega) (by omega)
            (by omega) hQ0
          rw [ancestorsF_right g2 n (2 * treeB n + x0) (by omega) (by omega) (by omega),
            show 2 * treeB n + x0 - 2 * treeB n = x0 from by omega, hanc0]
          simp

theorem getLast?_of_append_singleton {α : Type} (l pre : List α) (a : α)
    (h : l = pre ++ [a]) : l.getLast? = some a := by
  rw [h, List.getLast?_append_of_ne_nil _ (by simp)]
  rfl

theorem path_children : ∀ (f n i g : Nat) (pre suf : List Nat) (c p : Nat), n ≤ f → n ≤ g →
    i < n → (2 * i :: pathUpF f n (2 * i)) = pre ++ c :: p :: suf →
    c = (leftRightF g n p).1 ∨ c = (leftRightF g n p).2 := by
  intro f
  induction f with
  | zero => intro n i g pre suf c p hf hg hi _; omega
  | succ f ih =>
    intro n i g pre suf c p hf hg hi hsplit
    by_cases hn1 : n ≤ 1
    · have hn : n = 1 := by omega
      subst hn
      have hi0 : i = 0 := by omega
      subst hi0
      rw [pathUpF_one] at hsplit
      cases pre with
      | nil =>
        have h2 := List.cons.inj hsplit
        exact absurd h2.2.symm (by simp)
      | cons q qs =>
        simp only [List.cons_append] at hsplit
        have h2 := List.cons.inj hsplit
        exact absurd h2.2.symm (by simp)
    · have hb := treeB_facts n (by omega)
      obtain ⟨g2, rfl⟩ : ∃ g2, g = g2 + 1 := ⟨g - 1, by omega⟩
      by_cases hib : i < treeB n
      · rw [pathUpF_left f n (2 * i) (by omega) (by omega)] at hsplit
        have hsplit2 : (2 * i :: pathUpF f (treeB n) (2 * i)) ++ [2 * treeB n - 1] =
            pre ++ c :: (p :: suf) := by
          rw [← hsplit]; simp
        rcases splitConcat _ _ _ _ _ hsplit2 with ⟨hnil, _, _⟩ | ⟨suf2, hps, hA⟩
        · exact absurd hnil (by simp)
        · cases suf2 with
          | nil =>
            simp only [List.nil_append] at hps
            have hp := (List.cons.inj hps).1
            have hc : c = root (treeB n) := by
              have := path_last f (treeB n) i (by omega) hib
              have h3 := getLast?_of_append_singleton _ _ _ hA
              rw [this] at h3
              exact (Option.some.inj h3).symm
            rw [hp, leftRightF_root g2 n (by omega)]
            exact Or.inl hc
          | cons s2h s2t =>
            simp only [List.cons_append] at hps
            have hp := (List.cons.inj hps).1
            have hsuf := (List.cons.inj hps).2
            rw [← hp] at hA
            have hrec := ih (treeB n) i g2 pre s2t c p (by omega) (by omega) hib hA
            have hplt : p < 2 * treeB n - 1 := by
              refine path_bounds f (treeB n) i p (by omega) hib ?_
              rw [hA]; simp
            rw [leftRightF_left g2 n p (by omega) hplt]
            exact hrec
      · rw [pathUpF_right f n (2 * i) (by omega) (by omega)] at hsplit
        have hQ : 2 * i :: ((pathUpF f (n - treeB n) (2 * i - 2 * treeB n)).map
            (fun y => 2 * treeB n + y) ++ [2 * treeB n - 1]) =
            ((2 * (i - treeB n) :: pathUpF f (n - treeB n) (2 * (i - treeB n))).map
              (fun y => 2 * treeB n + y)) ++ [2 * treeB n - 1] := by
          simp only [List.map_cons]
          rw [show 2 * treeB n + 2 * (i - treeB n) = 2 * i from by omega,
            show 2 * (i - treeB n) = 2 * i - 2 * treeB n from by omega]
          simp
        rw [hQ] at hsplit
        rcases splitConcat _ _ _ _ _ hsplit with ⟨hnil, _, _⟩ | ⟨suf2, hps, hA⟩
        · exact absurd hnil (by simp)
        · cases suf2 with
          | nil =>
            simp only [List.nil_append] at hps
            have hp := (List.cons.inj hps).1
            have hc : c = 2 * treeB n + root (n - treeB n) := by
              have hl := path_last f (n - treeB n) (i - treeB n) (by omega) (by omega)
              have h3 := getLast?_of_append_singleton _ _ _ hA
              rw [List.getLast?_map, hl] at h3
              exact (Option.some.inj h3).symm
            rw [hp, leftRightF_root g2 n (by omega)]
            exact Or.inr hc
          | cons s2h s2t =>
            simp only [List.cons_append] at hps
            have hp := (List.cons.inj hps).1
            have hsuf := (List.cons.inj hps).2
            rw [← hp] at hA
            obtain ⟨pre0, c0, rest0, hQ0, hpre0, hcf, hrest⟩ := mapSplit _ _ _ _ _ hA
            cases rest0 with
            | nil => exact absurd hrest.symm (by simp)
            | cons p0 s3 =>
              simp only [List.map_cons] at hrest
              have hpp := (List.cons.inj hrest).1
              have hss := (List.cons.inj hrest).2
              have hrec := ih (n - treeB n) (i - treeB n) g2 pre0 s3 c0 p0 (by omega)
                (by omega) (by omega) hQ0
              rw [hpp, leftRightF_right g2 n (2 * treeB n + p0) (by omega) (by omega)
                (by omega), show 2 * treeB n + p0 - 2 * treeB n = p0 from by omega]
              rcases hrec with h | h
              · exact Or.inl (by rw [hcf, h])
              · exact Or.inr (by rw [hcf, h])

theorem ancestors_root_nil (g n : Nat) (hn : 1 ≤ n) (hg : 1 ≤ g) :
    ancestorsF g n (root n) = [] := by
  by_cases hn1 : n ≤ 1
  · have : n = 1 := by omega
    subst this
    exact ancestorsF_one g (root 1)
  · obtain ⟨g2, rfl⟩ : ∃ g2, g = g2 + 1 := ⟨g - 1, by omega⟩
    rw [root_eq_of_two_le n (by omega)]
    exact ancestorsF_root g2 n (by omega)

theorem path_children_bounds : ∀ (f n i g : Nat) (pre suf : List Nat) (x : Nat),
    n ≤ f → n ≤ g → i < n → pathUpF f n (2 * i) = pre ++ x :: suf →
    (leftRightF g n x).1 < 2 * n - 1 ∧ (leftRightF g n x).2 < 2 * n - 1 := by
  intro f
  induction f with
  | zero => intro n i g pre suf x hf hg hi _; omega
  | succ f ih =>
    intro n i g pre suf x hf hg hi hsplit
    by_cases hn1 : n ≤ 1
    · have hn : n = 1 := by omega
      subst hn
      rw [pathUpF_one] at hsplit
      exact absurd hsplit.symm (by simp)
    · have hb := treeB_facts n (by omega)
      obtain ⟨g2, rfl⟩ : ∃ g2, g = g2 + 1 := ⟨g - 1, by omega⟩
      by_cases hib : i < treeB n
      · rw [pathUpF_left f n (2 * i) (by omega) (by omega)] at hsplit
        rcases splitConcat _ _ _ _ _ hsplit with ⟨rfl, rfl, rfl⟩ | ⟨suf2, rfl, hA⟩
        · rw [leftRightF_root g2 n (by omega)]
          have h1 := root_lt (treeB n) (by omega)
          have h2 := root_lt (n - treeB n) (by omega)
          constructor <;> simp <;> omega
        · have hxlt : x < 2 * treeB n - 1 := by
            refine path_bounds f (treeB n) i x (by omega) hib ?_
            rw [hA]; simp
          rw [leftRightF_left g2 n x (by omega) hxlt]
          have := ih (treeB n) i g2 pre suf2 x (by omega) (by omega) hib hA
          omega
      · rw [pathUpF_right f n (2 * i) (by omega) (by omega)] at hsplit
        rcases splitConcat _ _ _ _ _ hsplit with ⟨rfl, rfl, rfl⟩ | ⟨suf2, rfl, hA⟩
        · rw [leftRightF_root g2 n (by omega)]
          have h1 := root_lt (treeB n) (by omega)
          have h2 := root_lt (n - treeB n) (by omega)
          constructor <;> simp <;> omega
        · obtain ⟨pre0, x0, suf0, hQ0, hpre0, rfl, rfl⟩ := mapSplit _ _ _ _ _ hA
          rw [show 2 * i - 2 * treeB n = 2 * (i - treeB n) from by omega] at hQ0
          have := ih (n - treeB n) (i - treeB n) g2 pre0 suf0 x0 (by omega) (by omega)
            (by omega) hQ0
          rw [leftRightF_right g2 n (2 * treeB n + x0) (by omega) (by omega) (by omega),
            show 2 * treeB n + x0 - 2 * treeB n = x0 from by omega]
          constructor <;> simp <;> omega

theorem path_child_ancestors : ∀ (f n i g g2 : Nat) (pre suf : List Nat) (x c : Nat),
    n ≤ f → n ≤ g → n ≤ g2 → i < n → pathUpF f n (2 * i) = pre ++ x :: suf →
    (c = (leftRightF g n x).1 ∨ c = (leftRightF g n x).2) →
    ancestorsF g2 n c = (x :: suf).reverse := by
  intro f
  induction f with
  | zero => intro n i g g2 pre suf x c hf hg hg2 hi _ _; omega
  | succ f ih =>
    intro n i g g2 pre suf x c hf hg hg2 hi hsplit hc
    by_cases hn1 : n ≤ 1
    · have hn : n = 1 := by omega
      subst hn
      rw [pathUpF_one] at hsplit
      exact absurd hsplit.symm (by simp)
    · have hb := treeB_facts n (by omega)
      obtain ⟨ga, rfl⟩ : ∃ ga, g = ga + 1 := ⟨g - 1, by omega⟩
      obtain ⟨gb, rfl⟩ : ∃ gb, g2 = gb + 1 := ⟨g2 - 1, by omega⟩
      by_cases hib : i < treeB n
      · rw [pathUpF_left f n (2 * i) (by omega) (by omega)] at hsplit
        rcases splitConcat _ _ _ _ _ hsplit with ⟨rfl, rfl, rfl⟩ | ⟨suf2, rfl, hA⟩
        · rw [leftRightF_root ga n (by omega)] at hc
          rcases hc with rfl | rfl
          · rw [ancestorsF_left gb n _ (by omega) (root_lt (treeB n) (by omega)),
              ancestors_root_nil gb (treeB n) (by omega) (by omega)]
            rfl
          · rw [ancestorsF_right gb n _ (by omega) (by omega) (by omega),
              show 2 * treeB n + root (n - treeB n) - 2 * treeB n = root (n - treeB n) from
                by omega,
              ancestors_root_nil gb (n - treeB n) (by omega) (by omega)]
            rfl
        · have hxlt : x < 2 * treeB n - 1 := by
            refine path_bounds f (treeB n) i x (by omega) hib ?_
            rw [hA]; simp
          rw [leftRightF_left ga n x (by omega) hxlt] at hc
          have hclt : c < 2 * treeB n - 1 := by
            have := path_children_bounds f (treeB n) i ga pre suf2 x (by omega) (by omega)
              hib hA
            rcases hc with rfl | rfl <;> omega
          have hrec := ih (treeB n) i ga gb pre suf2 x c (by omega) (by omega) (by omega)
            hib hA hc
          rw [ancestorsF_left gb n c (by omega) hclt, hrec]
          simp
      · rw [pathUpF_right f n (2 * i) (by omega) (by omega)] at hsplit
        rcases splitConcat _ _ _ _ _ hsplit with ⟨rfl, rfl, rfl⟩ | ⟨suf2, rfl, hA⟩
        · rw [leftRightF_root ga n (by omega)] at hc
          rcases hc with rfl | rfl
          · rw [ancestorsF_left gb n _ (by omega) (root_lt (treeB n) (by omega)),
              ancestors_root_nil gb (treeB n) (by omega) (by omega)]
            rfl
          · rw [ancestorsF_right gb n _ (by omega) (by omega) (by omega),
              show 2 * treeB n + root (n - treeB n) - 2 * treeB n = root (n - treeB n) from
                by omega,
              ancestors_root_nil gb (n - treeB n) (by omega) (by omega)]
            rfl
        · obtain ⟨pre0, x0, suf0, hQ0, hpre0, rfl, rfl⟩ := mapSplit _ _ _ _ _ hA
          rw [show 2 * i - 2 * treeB n = 2 * (i - treeB n) from by omega] at hQ0
          rw [leftRightF_right ga n (2 * treeB n + x0) (by omega) (by omega) (by omega),
            show 2 * treeB n + x0 - 2 * treeB n = x0 from by omega] at hc
          have hc0 : ∃ c0, c = 2 * treeB n + c0 ∧
              (c0 = (leftRightF ga (n - treeB n) x0).1 ∨
               c0 = (leftRightF ga (n - treeB n) x0).2) := by
            rcases hc with rfl | rfl
            · exact ⟨_, rfl, Or.inl rfl⟩
            · exact ⟨_, rfl, Or.inr rfl⟩
          obtain ⟨c0, rfl, hc0⟩ := hc0
          have hrec := ih (n - treeB n) (i - treeB n) ga gb pre0 suf0 x0 c0 (by omega)
            (by omega) (by omega) (by omega) hQ0 hc0
          rw [ancestorsF_right gb n (2 * treeB n + c0) (by omega) (by omega) (by omega),
            show 2 * treeB n + c0 - 2 * treeB n = c0 from by omega, hrec]
          simp

theorem ancestorsF_le_one (f n x : Nat) (hn : n ≤ 1) : ancestorsF f n x = [] := by
  cases f with
  | zero => rfl
  | succ k =>
    show (if n ≤ 1 then ([] : List Nat) else _) = []
    rw [if_pos hn]

theorem ancestors_bound : ∀ (g n x a : Nat), n ≤ g → a ∈ ancestorsF g n x → a < 2 * n - 1 := by
  intro g
  induction g with
  | zero => intro n x a hg ha; rw [show ancestorsF 0 n x = [] from rfl] at ha; simp at ha
  | succ g ih =>
    intro n x a hg ha
    by_cases hn1 : n ≤ 1
    · rw [ancestorsF_le_one _ _ _ hn1] at ha
      simp at ha
    · have hb := treeB_facts n (by omega)
      by_cases hroot : x = 2 * treeB n - 1
      · rw [hroot, ancestorsF_root g n (by omega)] at ha
        simp at ha
      · by_cases hxlt : x < 2 * treeB n - 1
        · rw [ancestorsF_left g n x (by omega) hxlt] at ha
          rcases List.mem_cons.mp ha with rfl | ha
          · omega
          · have := ih (treeB n) x a (by omega) ha
            omega
        · rw [ancestorsF_right g n x (by omega) hroot hxlt] at ha
          rcases List.mem_cons.mp ha with rfl | ha
          · omega
          · obtain ⟨a0, ha0, rfl⟩ := List.mem_map.mp ha
            have := ih (n - treeB n) (x - 2 * treeB n) a0 (by omega) ha0
            omega

theorem ancestors_chain : ∀ (g n x a g2 : Nat), n ≤ g → n ≤ g2 → a ∈ ancestorsF g n x →
    ∃ tail, ancestorsF g n x = ancestorsF g2 n a ++ [a] ++ tail := by
  intro g
  induction g with
  | zero => intro n x a g2 hg _ ha; rw [show ancestorsF 0 n x = [] from rfl] at ha; simp at ha
  | succ g ih =>
    intro n x a g2 hg hg2 ha
    by_cases hn1 : n ≤ 1
    · rw [ancestorsF_le_one _ _ _ hn1] at ha
      simp at ha
    · have hb := treeB_facts n (by omega)
      obtain ⟨gb, rfl⟩ : ∃ gb, g2 = gb + 1 := ⟨g2 - 1, by omega⟩
      by_cases hroot : x = 2 * treeB n - 1
      · rw [hroot, ancestorsF_root g n (by omega)] at ha
        simp at ha
      · by_cases hxlt : x < 2 * treeB n - 1
        · rw [ancestorsF_left g n x (by omega) hxlt] at ha ⊢
          rcases List.mem_cons.mp ha with rfl | ha
          · refine ⟨ancestorsF g (treeB n) x, ?_⟩
            rw [ancestorsF_root gb n (by omega)]
            rfl
          · have halt : a < 2 * treeB n - 1 := ancestors_bound g (treeB n) x a (by omega) ha
            obtain ⟨tail, htail⟩ := ih (treeB n) x a gb (by omega) (by omega) ha
            refine ⟨tail, ?_⟩
            rw [htail, ancestorsF_left gb n a (by omega) halt]
            simp
        · rw [ancestorsF_right g n x (by omega) hroot hxlt] at ha ⊢
          rcases List.mem_cons.mp ha with rfl | ha
          · refine ⟨(ancestorsF g (n - treeB n) (x - 2 * treeB n)).map
              (fun y => 2 * treeB n + y), ?_⟩
            rw [ancestorsF_root gb n (by omega)]
            rfl
          · obtain ⟨a0, ha0, rfl⟩ := List.mem_map.mp ha
            obtain ⟨tail0, htail0⟩ := ih (n - treeB n) (x - 2 * treeB n) a0 gb (by omega)
              (by omega) ha0
            refine ⟨tail0.map (fun y => 2 * treeB n + y), ?_⟩
            rw [htail0, ancestorsF_right gb n (2 * treeB n + a0) (by omega) (by omega)
              (by omega), show 2 * treeB n + a0 - 2 * treeB n = a0 from by omega]
            simp

theorem ancestors_trans (n x a z : Nat) (ha : a ∈ ancestors n x) (hz : z ∈ ancestors n a) :
    z ∈ ancestors n x := by
  obtain ⟨tail, htail⟩ := ancestors_chain n n x a n (Nat.le_refl n) (Nat.le_refl n) ha
  show z ∈ ancestorsF n n x
  rw [htail]
  have hz2 : z ∈ ancestorsF n n a := hz
  simp [hz2]

theorem ancestors_irrefl (n x : Nat) : x ∉ ancestors n x := by
  intro hx
  obtain ⟨tail, htail⟩ := ancestors_chain n n x x n (Nat.le_refl n) (Nat.le_refl n) hx
  have := congrArg List.length htail
  simp at this

/-!
## Scan and walk lemmas
-/

theorem scanPath_full : ∀ (init : List Nat) (nodes : List (Option ASTreeNode)) (last : Nat)
    (v : ASTreeNode), (∀ x ∈ init, nodes[x]? = some none) →
    nodes[last]? = some (some v) → scanPath nodes (init ++ [last]) = some (init ++ [last]) := by
  intro init
  induction init with
  | nil =>
    intro nodes last v _ hlast
    rw [List.nil_append, scanPath, hlast]
  | cons x rest ih =>
    intro nodes last v hnone hlast
    rw [List.cons_append, scanPath, hnone x (by simp),
      ih nodes last v (fun y hy => hnone y (by simp [hy])) hlast]

theorem scanPath_shape : ∀ (L : List Nat) (nodes : List (Option ASTreeNode)) (E : List Nat),
    scanPath nodes L = some E →
    (E = L ∧ ∀ x ∈ E, nodes[x]? = some none) ∨
    (∃ F x rest, L = F ++ x :: rest ∧ E = F ++ [x] ∧ (∀ y ∈ F, nodes[y]? = some none) ∧
      ∃ v, nodes[x]? = some (some v)) := by
  intro L
  induction L with
  | nil =>
    intro nodes E h
    rw [scanPath] at h
    exact Or.inl ⟨(Option.some.inj h).symm, by rw [← Option.some.inj h]; simp⟩
  | cons x rest ih =>
    intro nodes E h
    rw [scanPath] at h
    cases hx : nodes[x]? with
    | none => rw [hx] at h; simp at h
    | some o =>
      cases o with
      | some v =>
        rw [hx] at h
        refine Or.inr ⟨[], x, rest, by simp, by simp [← Option.some.inj h], by simp, v, hx⟩
      | none =>
        rw [hx] at h
        cases hrec : scanPath nodes rest with
        | none => rw [hrec] at h; simp at h
        | some l =>
          rw [hrec] at h
          rcases ih nodes l hrec with ⟨rfl, hall⟩ | ⟨F, y, r2, hL, hE, hF, v, hv⟩
          · refine Or.inl ⟨(Option.some.inj h).symm, ?_⟩
            rw [← Option.some.inj h]
            intro z hz
            rcases List.mem_cons.mp hz with rfl | hz
            · exact hx
            · exact hall z hz
          · refine Or.inr ⟨x :: F, y, r2, by rw [hL]; simp, ?_, ?_, v, hv⟩
            · rw [← Option.some.inj h, hE]
              simp
            · intro z hz
              rcases List.mem_cons.mp hz with rfl | hz
              · exact hx
              · exact hF z hz

theorem hash_down_some (t : ASTree) (x : Nat) (nd : ASTreeNode)
    (h : t.nodes[x]? = some (some nd))
    (hl : (leftRight t.size x).1 < t.nodes.length)
    (hr : (leftRight t.size x).2 < t.nodes.length) :
    t.hash_down x = some { t with nodes :=
      (((t.nodes.set (leftRight t.size x).1
          (some { secret := derive_app_secret nd.secret "tree" (leftRight t.size x).1 0 })).set
        (leftRight t.size x).2
          (some { secret := derive_app_secret nd.secret "tree" (leftRight t.size x).2 0 })).set
        x none) } := by
  rw [ASTree.hash_down, h]
  dsimp only
  rw [if_pos ⟨hl, hr⟩]

theorem hash_down_self_none (t : ASTree) (x : Nat) (t2 : ASTree)
    (h : t.hash_down x = some t2) : t2.nodes[x]? = some none := by
  rw [ASTree.hash_down] at h
  cases hx : t.nodes[x]? with
  | none => rw [hx] at h; simp at h
  | some o =>
    cases o with
    | none => rw [hx] at h; simp at h
    | some nd =>
      rw [hx] at h
      dsimp only at h
      split at h
      · rename_i hb
        rw [← Option.some.inj h]
        show (((t.nodes.set _ _).set _ _).set x none)[x]? = some none
        rw [List.getElem?_set_self]
        simp
        have : x < t.nodes.length := by
          by_contra hxx
          rw [List.getElem?_eq_none (by omega)] at hx
          simp at hx
        omega
      · simp at h

theorem hash_down_unchanged (t : ASTree) (x : Nat) (t2 : ASTree) (j : Nat)
    (h : t.hash_down x = some t2)
    (hj1 : j ≠ (leftRight t.size x).1) (hj2 : j ≠ (leftRight t.size x).2) (hj3 : j ≠ x) :
    t2.nodes[j]? = t.nodes[j]? := by
  rw [ASTree.hash_down] at h
  cases hx : t.nodes[x]? with
  | none => rw [hx] at h; simp at h
  | some o =>
    cases o with
    | none => rw [hx] at h; simp at h
    | some nd =>
      rw [hx] at h
      dsimp only at h
      split at h
      · rw [← Option.some.inj h]
        show (((t.nodes.set _ _).set _ _).set x none)[j]? = t.nodes[j]?
        rw [List.getElem?_set_ne (by omega), List.getElem?_set_ne (by omega),
          List.getElem?_set_ne (by omega)]
      · simp at h

theorem hash_down_new_live (t : ASTree) (x : Nat) (t2 : ASTree) (j : Nat) (v : ASTreeNode)
    (h : t.hash_down x = some t2) (hlive : t2.nodes[j]? = some (some v)) :
    t.nodes[j]? = some (some v) ∨ j = (leftRight t.size x).1 ∨ j = (leftRight t.size x).2 := by
  by_cases hj1 : j = (leftRight t.size x).1
  · exact Or.inr (Or.inl hj1)
  by_cases hj2 : j = (leftRight t.size x).2
  · exact Or.inr (Or.inr hj2)
  by_cases hj3 : j = x
  · subst hj3
    rw [hash_down_self_none t j t2 h] at hlive
    simp at hlive
  · rw [hash_down_unchanged t x t2 j h hj1 hj2 hj3] at hlive
    exact Or.inl hlive

theorem foldChar : ∀ (W : List Nat) (t t3 : ASTree) (n : Nat), t.size = n →
    t.hashDownAll W = some t3 →
    (∀ j, (∀ x ∈ W, j ≠ (leftRight n x).1 ∧ j ≠ (leftRight n x).2 ∧ j ≠ x) →
      t3.nodes[j]? = t.nodes[j]?) ∧
    (∀ j v, t3.nodes[j]? = some (some v) → t.nodes[j]? = some (some v) ∨
      ∃ x ∈ W, j = (leftRight n x).1 ∨ j = (leftRight n x).2) := by
  intro W
  induction W with
  | nil =>
    intro t t3 n hn h
    rw [ASTree.hashDownAll] at h
    rw [← Option.some.inj h]
    exact ⟨fun j _ => rfl, fun j v hv => Or.inl hv⟩
  | cons w rest ih =>
    intro t t3 n hn h
    rw [ASTree.hashDownAll] at h
    cases hmid : t.hash_down w with
    | none => rw [hmid] at h; simp at h
    | some tmid =>
      rw [hmid] at h
      obtain ⟨hmid_rat, hmid_sz, hmid_cs, hmid_len⟩ := hash_down_fields t w tmid hmid
      have hmid_n : tmid.size = n := by omega
      obtain ⟨ih1, ih2⟩ := ih tmid t3 n hmid_n h
      constructor
      · intro j hj
        have hjw := hj w (by simp)
        rw [ih1 j (fun x hx => hj x (by simp [hx]))]
        rw [← hn] at hjw
        exact hash_down_unchanged t w tmid j hmid hjw.1 hjw.2.1 hjw.2.2
      · intro j v hv
        rcases ih2 j v hv with hmidlive | ⟨x, hx, hxc⟩
        · rcases hash_down_new_live t w tmid j v hmid hmidlive with h1 | h2
          · exact Or.inl h1
          · rw [hn] at h2
            exact Or.inr ⟨w, by simp, h2⟩
        · exact Or.inr ⟨x, by simp [hx], hxc⟩

theorem foldNone : ∀ (W : List Nat) (t t3 : ASTree) (n : Nat), t.size = n →
    t.hashDownAll W = some t3 →
    List.Pairwise (fun a b => a ≠ (leftRight n b).1 ∧ a ≠ (leftRight n b).2 ∧ a ≠ b) W →
    ∀ x ∈ W, t3.nodes[x]? = some none := by
  intro W
  induction W with
  | nil => intro t t3 n hn h hsep x hx; simp at hx
  | cons w rest ih =>
    intro t t3 n hn h hsep x hx
    rw [ASTree.hashDownAll] at h
    cases hmid : t.hash_down w with
    | none => rw [hmid] at h; simp at h
    | some tmid =>
      rw [hmid] at h
      obtain ⟨hmid_rat, hmid_sz, hmid_cs, hmid_len⟩ := hash_down_fields t w tmid hmid
      rcases List.mem_cons.mp hx with rfl | hx
      · have hwnone := hash_down_self_none t x tmid hmid
        have hsep2 := (List.pairwise_cons.mp hsep).1
        obtain ⟨hfold1, _⟩ := foldChar rest tmid t3 n (by omega) h
        rw [hfold1 x (fun b hb => hsep2 b hb)]
        exact hwnone
      · exact ih tmid t3 n (by omega) h (List.pairwise_cons.mp hsep).2 x hx

theorem hashDownAll_singleton (t : ASTree) (x : Nat) : t.hashDownAll [x] = t.hash_down x := by
  show (match t.hash_down x with
    | none => none
    | some t2 => t2.hashDownAll []) = t.hash_down x
  cases h : t.hash_down x with
  | none => rfl
  | some t2 => rfl

theorem walk_success : ∀ (W : List Nat) (w : Nat) (t : ASTree) (lf n : Nat), t.size = n →
    (∀ pre a b suf, (w :: W) ++ [lf] = pre ++ a :: b :: suf →
      (b = (leftRight n a).1 ∨ b = (leftRight n a).2) ∧ b ≠ a) →
    (∀ x ∈ w :: W, x < t.nodes.length ∧ (leftRight n x).1 < t.nodes.length ∧
      (leftRight n x).2 < t.nodes.length) →
    (∃ v, t.nodes[w]? = some (some v)) →
    ∃ t3, t.hashDownAll (w :: W) = some t3 ∧ ∃ v2, t3.nodes[lf]? = some (some v2) := by
  intro W
  induction W with
  | nil =>
    intro w t lf n hn hlinks hbounds hlive
    obtain ⟨v, hv⟩ := hlive
    obtain ⟨hl1, hl2⟩ := hlinks [] w lf [] (by simp)
    obtain ⟨hwb, hlb, hrb⟩ := hbounds w (by simp)
    rw [← hn] at hl1 hlb hrb
    have hsome := hash_down_some t w v hv hlb hrb
    refine ⟨_, by rw [hashDownAll_singleton]; exact hsome, ?_⟩
    show ∃ v2, ((((t.nodes.set _ _).set _ _).set w none))[lf]? = some (some v2)
    rw [List.getElem?_set_ne (by omega)]
    rcases hl1 with rfl | rfl
    · by_cases heq : (leftRight t.size w).1 = (leftRight t.size w).2
      · rw [heq, List.getElem?_set_self (by simpa using hrb)]
        exact ⟨_, rfl⟩
      · rw [List.getElem?_set_ne (by omega), List.getElem?_set_self (by simpa using hlb)]
        exact ⟨_, rfl⟩
    · rw [List.getElem?_set_self (by simpa using hrb)]
      exact ⟨_, rfl⟩
  | cons w2 rest ih =>
    intro w t lf n hn hlinks hbounds hlive
    obtain ⟨v, hv⟩ := hlive
    obtain ⟨hl1, hl2⟩ := hlinks [] w w2 (rest ++ [lf]) (by simp)
    obtain ⟨hwb, hlb, hrb⟩ := hbounds w (by simp)
    rw [← hn] at hl1 hlb hrb
    have hsome := hash_down_some t w v hv hlb hrb
    have hw2live : ∃ v2, (((t.nodes.set (leftRight t.size w).1
        (some { secret := derive_app_secret v.secret "tree" (leftRight t.size w).1 0 })).set
        (leftRight t.size w).2
        (some { secret := derive_app_secret v.secret "tree" (leftRight t.size w).2 0 })).set
        w none)[w2]? = some (some v2) := by
      rw [List.getElem?_set_ne (by omega)]
      rcases hl1 with rfl | rfl
      · by_cases heq : (leftRight t.size w).1 = (leftRight t.size w).2
        · rw [heq, List.getElem?_set_self (by simpa using hrb)]
          exact ⟨_, rfl⟩
        · rw [List.getElem?_set_ne (by omega), List.getElem?_set_self (by simpa using hlb)]
          exact ⟨_, rfl⟩
      · rw [List.getElem?_set_self (by simpa using hrb)]
        exact ⟨_, rfl⟩
    obtain ⟨t3, ht3, hlf⟩ := ih w2
      { t with nodes := (((t.nodes.set (leftRight t.size w).1
          (some { secret := derive_app_secret v.secret "tree" (leftRight t.size w).1 0 })).set
          (leftRight t.size w).2
          (some { secret := derive_app_secret v.secret "tree" (leftRight t.size w).2 0 })).set
          w none) } lf n (by show t.size = n; omega)
      (fun pre a b suf hsplit => hlinks (w :: pre) a b suf (congrArg (List.cons w) hsplit))
      (fun x hx => by
        have := hbounds x (by simp [hx])
        simpa using this)
      hw2live
    refine ⟨t3, ?_, hlf⟩
    rw [ASTree.hashDownAll, hsome]
    exact ht3

theorem pathUp_bounds (n i x : Nat) (hi : i < n) (hx : x ∈ 2 * i :: pathUp n (2 * i)) :
    x < 2 * n - 1 :=
  path_bounds n n i x (Nat.le_refl n) hi hx

theorem pathUp_ancestors (n i : Nat) (pre suf : List Nat) (x : Nat) (hi : i < n)
    (h : (2 * i :: pathUp n (2 * i)) = pre ++ x :: suf) : ancestors n x = suf.reverse :=
  path_ancestors n n i n pre suf x (Nat.le_refl n) (Nat.le_refl n) hi h

theorem pathUp_children (n i : Nat) (pre suf : List Nat) (c p : Nat) (hi : i < n)
    (h : (2 * i :: pathUp n (2 * i)) = pre ++ c :: p :: suf) :
    c = (leftRight n p).1 ∨ c = (leftRight n p).2 :=
  path_children n n i n pre suf c p (Nat.le_refl n) (Nat.le_refl n) hi h

theorem pathUp_children_bounds (n i : Nat) (pre suf : List Nat) (x : Nat) (hi : i < n)
    (h : pathUp n (2 * i) = pre ++ x :: suf) :
    (leftRight n x).1 < 2 * n - 1 ∧ (leftRight n x).2 < 2 * n - 1 :=
  path_children_bounds n n i n pre suf x (Nat.le_refl n) (Nat.le_refl n) hi h

theorem pathUp_child_ancestors (n i : Nat) (pre suf : List Nat) (x c : Nat) (hi : i < n)
    (h : pathUp n (2 * i) = pre ++ x :: suf)
    (hc : c = (leftRight n x).1 ∨ c = (leftRight n x).2) :
    ancestors n c = (x :: suf).reverse :=
  path_child_ancestors n n i n n pre suf x c (Nat.le_refl n) (Nat.le_refl n) (Nat.le_refl n)
    hi h hc

theorem pathUp_last (n i : Nat) (hi : i < n) :
    (2 * i :: pathUp n (2 * i)).getLast? = some (root n) :=
  path_last n n i (Nat.le_refl n) hi

theorem pathUp_ne_nil (n x : Nat) (hn : 2 ≤ n) : pathUp n x ≠ [] := by
  cases n with
  | zero => omega
  | succ f2 =>
    show pathUpF (f2 + 1) (f2 + 1) x ≠ []
    by_cases hx : x < 2 * treeB (f2 + 1) - 1
    · rw [pathUpF_left f2 (f2 + 1) x hn hx]
      simp
    · rw [pathUpF_right f2 (f2 + 1) x hn hx]
      simp

theorem pathUp_getLast (n i : Nat) (hn : 2 ≤ n) (hi : i < n) :
    (pathUp n (2 * i)).getLast? = some (root n) := by
  have h := pathUp_last n i hi
  cases hp : pathUp n (2 * i) with
  | nil => exact absurd hp (pathUp_ne_nil n (2 * i) hn)
  | cons b bs =>
    rw [hp] at h
    exact h

theorem new_size (cs : CipherSuite) (s : Secret) (n : Nat) : (ASTree.new cs s n).size = n := rfl

theorem new_nodes_length (cs : CipherSuite) (s : Secret) (n : Nat) :
    (ASTree.new cs s n).nodes.length = 2 * n - 1 := by
  show ((List.replicate (2 * n - 1) (none : Option ASTreeNode)).set (root n)
    (some { secret := s })).length = 2 * n - 1
  simp

theorem new_node_root (cs : CipherSuite) (s : Secret) (n : Nat) (hn : 1 ≤ n) :
    (ASTree.new cs s n).nodes[root n]? = some (some { secret := s }) := by
  show ((List.replicate (2 * n - 1) (none : Option ASTreeNode)).set (root n)
    (some { secret := s }))[root n]? = _
  rw [List.getElem?_set_self]
  simp
  exact root_lt n hn

theorem new_node_none (cs : CipherSuite) (s : Secret) (n x : Nat) (hx : x < 2 * n - 1)
    (hroot : x ≠ root n) : (ASTree.new cs s n).nodes[x]? = some none := by
  show ((List.replicate (2 * n - 1) (none : Option ASTreeNode)).set (root n)
    (some { secret := s }))[x]? = _
  rw [List.getElem?_set_ne (fun h => hroot h.symm), List.getElem?_replicate, if_pos hx]

theorem pathUp_full_split (n i : Nat) (_hn : 2 ≤ n) (hi : i < n) :
    (2 * i :: pathUp n (2 * i)) =
      (2 * i :: pathUp n (2 * i)).dropLast ++ [root n] :=
  (dropLast_append_of_getLast _ _ (pathUp_last n i hi)).symm

theorem pathUp_mem_ne_root (n i x : Nat) (hn : 2 ≤ n) (hi : i < n)
    (hx : x ∈ (2 * i :: pathUp n (2 * i)).dropLast) : x ≠ root n := by
  intro hroot
  obtain ⟨p2, s2, hsplit⟩ := List.append_of_mem hx
  have hQ : (2 * i :: pathUp n (2 * i)) = p2 ++ x :: (s2 ++ [root n]) := by
    rw [pathUp_full_split n i hn hi, hsplit]
    simp
  have hanc := pathUp_ancestors n i p2 (s2 ++ [root n]) x hi hQ
  have h0 : ancestors n (root n) = [] := ancestors_root_nil n n (by omega) (by omega)
  rw [hroot, h0] at hanc
  have := congrArg List.length hanc
  simp at this

theorem pathUp_adjacent_ne (n i : Nat) (pre suf : List Nat) (c p : Nat) (hi : i < n)
    (h : (2 * i :: pathUp n (2 * i)) = pre ++ c :: p :: suf) : p ≠ c := by
  intro hcp
  have h1 : ancestors n c = (p :: suf).reverse := pathUp_ancestors n i pre (p :: suf) c hi h
  have h2 : ancestors n p = suf.reverse :=
    pathUp_ancestors n i (pre ++ [c]) suf p hi (by rw [h]; simp)
  rw [← hcp] at h1
  rw [h1] at h2
  have := congrArg List.length h2
  simp at this

theorem fresh_materialize (cs : CipherSuite) (s : Secret) (n i : Nat) (hn : 1 ≤ n)
    (hi : i < n) :
    ∃ tm sec, (ASTree.new cs s n).materializeLeaf i = some (tm, sec) := by
  by_cases hn1 : n ≤ 1
  · have hn2 : n = 1 := by omega
    subst hn2
    have hi0 : i = 0 := by omega
    subst hi0
    exact ⟨ASTree.new cs s 1, s, rfl⟩
  · have hn2 : 2 ≤ n := by omega
    have hQlast : (pathUp n (2 * i)).getLast? = some (root n) := pathUp_getLast n i hn2 hi
    have hdir : dirpath n (2 * i) ++ [root n] = pathUp n (2 * i) :=
      dropLast_append_of_getLast _ _ hQlast
    have hscan : scanPath (ASTree.new cs s n).nodes (2 * i :: pathUp n (2 * i)) =
        some (2 * i :: pathUp n (2 * i)) := by
      rw [pathUp_full_split n i hn2 hi]
      refine scanPath_full _ _ _ { secret := s } ?_ (new_node_root cs s n (by omega))
      intro x hx
      refine new_node_none cs s n x ?_ (pathUp_mem_ne_root n i x hn2 hi hx)
      exact pathUp_bounds n i x hi (List.dropLast_subset _ hx)
    cases hW : (pathUp n (2 * i)).reverse with
    | nil =>
      have := congrArg List.reverse hW
      simp at this
      exact absurd this (pathUp_ne_nil n (2 * i) hn2)
    | cons w W =>
      have hwroot : w = root n := by
        have h1 : (pathUp n (2 * i)).reverse.head? = some w := by rw [hW]; rfl
        rw [List.head?_reverse, hQlast] at h1
        exact (Option.some.inj h1).symm
      have hlinks : ∀ pre a b suf, (w :: W) ++ [2 * i] = pre ++ a :: b :: suf →
          (b = (leftRight n a).1 ∨ b = (leftRight n a).2) ∧ b ≠ a := by
        intro pre a b suf hsplit
        have hQrev : (2 * i :: pathUp n (2 * i)).reverse = (w :: W) ++ [2 * i] := by
          rw [List.reverse_cons, hW]
        have hQ : 2 * i :: pathUp n (2 * i) = suf.reverse ++ b :: a :: pre.reverse := by
          have := congrArg List.reverse (hQrev.trans hsplit)
          simpa using this
        exact ⟨pathUp_children n i suf.reverse pre.reverse b a hi hQ,
          fun hba => pathUp_adjacent_ne n i suf.reverse pre.reverse b a hi hQ hba.symm⟩
      have hbounds : ∀ x ∈ w :: W, x < (ASTree.new cs s n).nodes.length ∧
          (leftRight n x).1 < (ASTree.new cs s n).nodes.length ∧
          (leftRight n x).2 < (ASTree.new cs s n).nodes.length := by
        intro x hx
        have hxp : x ∈ pathUp n (2 * i) := by
          rw [← List.mem_reverse, hW]
          exact hx
        obtain ⟨p2, s2, hsplit2⟩ := List.append_of_mem hxp
        have hcb := pathUp_children_bounds n i p2 s2 x hi hsplit2
        have hxb := pathUp_bounds n i x hi (List.mem_cons_of_mem _ hxp)
        rw [new_nodes_length]
        exact ⟨hxb, hcb.1, hcb.2⟩
      have hlive : ∃ v, (ASTree.new cs s n).nodes[w]? = some (some v) := by
        rw [hwroot]
        exact ⟨_, new_node_root cs s n (by omega)⟩
      obtain ⟨t3, hfold, v2, hlf⟩ := walk_success W w (ASTree.new cs s n) (2 * i) n
        (new_size cs s n) hlinks hbounds hlive
      refine ⟨t3, v2.secret, ?_⟩
      rw [ASTree.materializeLeaf, new_size, hdir, hscan]
      show (match (ASTree.new cs s n).hashDownAll
          ((2 * i :: pathUp n (2 * i)).drop 1).reverse with
        | none => none
        | some t2 =>
          match t2.nodes[2 * i]? with
          | some (some nd) => some (t2, nd.secret)
          | _ => none) = some (t3, v2.secret)
      rw [show ((2 * i :: pathUp n (2 * i)).drop 1) = pathUp n (2 * i) from rfl, hW, hfold]
      show (match t3.nodes[2 * i]? with
        | some (some nd) => some (t3, nd.secret)
        | _ => none) = some (t3, v2.secret)
      rw [hlf]

theorem ratchet_future_iff (r : SenderRatchet) (g : Nat) :
    (∃ r2, r.get_secret g = some (Except.error ASError.TooDistantInTheFuture, r2)) ↔
      g > r.generation + MAXIMUM_FORWARD_DISTANCE := by
  constructor
  · rintro ⟨r2, h⟩
    by_contra hle
    rw [SenderRatchet.get_secret, if_neg hle] at h
    repeat' split at h
    all_goals simp at h
  · intro h
    exact ⟨r, get_secret_future r g h⟩

theorem new_ratchet_none (cs : CipherSuite) (s : Secret) (n i : Nat) (hi : i < n) :
    (ASTree.new cs s n).sender_ratchets[i]? = some none := by
  show (List.replicate n (none : Option SenderRatchet))[i]? = some none
  rw [List.getElem?_replicate, if_pos hi]

/-- C4.  On a fresh tree every request with generation at most
`MAXIMUM_FORWARD_DISTANCE` (= 1000) succeeds for every sender `i < size`,
the request for generation 1001 returns `TooDistantInTheFuture`, and in
general a `SenderRatchet::get_secret` call returns
`TooDistantInTheFuture` exactly when the requested generation exceeds
the ratchet's current generation plus 1000. -/
theorem fresh_tree_bounds_C4 (cs : CipherSuite) (s : Secret) (n i : Nat)
    (hn : 1 ≤ n) (hi : i < n) :
    (∀ g, g ≤ MAXIMUM_FORWARD_DISTANCE →
      ∃ a t2, (ASTree.new cs s n).get_secret i g = some (Except.ok a, t2)) ∧
    (∃ t2, (ASTree.new cs s n).get_secret i 1001 =
      some (Except.error ASError.TooDistantInTheFuture, t2)) ∧
    (∀ (r : SenderRatchet) (g : Nat),
      (∃ r2, r.get_secret g = some (Except.error ASError.TooDistantInTheFuture, r2)) ↔
        g > r.generation + MAXIMUM_FORWARD_DISTANCE) := by
  have hige : ¬i ≥ (ASTree.new cs s n).size := by
    rw [new_size]
    omega
  have hslot : (ASTree.new cs s n).sender_ratchets[i]? = some none :=
    new_ratchet_none cs s n i hi
  obtain ⟨tm, sec, hm⟩ := fresh_materialize cs s n i hn hi
  refine ⟨?_, ?_, fun r g => ratchet_future_iff r g⟩
  · intro g hg
    obtain ⟨a, r2, hcall⟩ := fresh_ratchet_success i sec cs g hg
    exact ⟨a, _, get_secret_materialize_some _ i g tm sec _ r2 hige (Or.inl hslot) hm hcall⟩
  · have hfut := get_secret_future (SenderRatchet.new i sec cs) 1001
      (by show 1001 > 0 + MAXIMUM_FORWARD_DISTANCE; decide)
    exact ⟨_, get_secret_materialize_some _ i 1001 tm sec _ _ hige (Or.inl hslot) hm hfut⟩

theorem fresh_tree_bounds_C4_witness :
    ((ASTree.new cs0 appSecret0 2).get_secret 0 1000).isSome = true ∧
    ((ASTree.new cs0 appSecret0 2).get_secret 0 1001).map
      (fun p => decide (p.1 = Except.error ASError.TooDistantInTheFuture)) = some true ∧
    ((SenderRatchet.mk cs0 0 7 [appSecret0]).get_secret 1008).isSome = true := by
  obtain ⟨h1, h2, h3⟩ := fresh_tree_bounds_C4 cs0 appSecret0 2 0 (by decide) (by decide)
  refine ⟨?_, ?_, ?_⟩
  · obtain ⟨a, t2, heq⟩ := h1 1000 (by decide)
    rw [heq]
    rfl
  · obtain ⟨t2, heq⟩ := h2
    rw [heq]
    rfl
  · obtain ⟨r2, heq⟩ := (h3 (SenderRatchet.mk cs0 0 7 [appSecret0]) 1008).mpr (by decide)
    rw [heq]
    rfl

theorem roundU8 (n : Nat) (e r : List Nat) (h : encodeU8 n = some e) :
    decodeU8 (e ++ r) = some (n, r) := by
  rw [encodeU8] at h
  split at h
  · cases h
    rfl
  · cases h

theorem roundU16 (n : Nat) (e r : List Nat) (h : encodeU16 n = some e) :
    decodeU16 (e ++ r) = some (n, r) := by
  rw [encodeU16] at h
  split at h
  · cases h
    have hv : n / 256 * 256 + n % 256 = n := by omega
    simp [decodeU16, hv]
  · cases h

theorem roundU32 (n : Nat) (e r : List Nat) (h : encodeU32 n = some e) :
    decodeU32 (e ++ r) = some (n, r) := by
  rw [encodeU32] at h
  split at h
  · cases h
    rename_i hn
    have hv : ((n / 16777216 % 256 * 256 + n / 65536 % 256) * 256 + n / 256 % 256) * 256
        + n % 256 = n := by omega
    simp [decodeU32, hv]
  · cases h

theorem roundCipherSuite (c : CipherSuite) (e r : List Nat)
    (h : encodeCipherSuite c = some e) : decodeCipherSuite (e ++ r) = some (c, r) := by
  cases c
  rw [encodeCipherSuite] at h
  rw [decodeCipherSuite, roundU16 3 e r h]

theorem roundVecU8 (l e r : List Nat) (h : encodeVecU8 l = some e) :
    decodeVecU8 (e ++ r) = some (l, r) := by
  rw [encodeVecU8, encodeU8] at h
  split at h
  · simp at h
    subst h
    simp only [List.cons_append, decodeVecU8, decodeU8]
    rw [if_pos (by simp), List.take_left, List.drop_left]
  · simp at h

theorem encodeVecU8_ne_nil (l e : List Nat) (h : encodeVecU8 l = some e) : e ≠ [] := by
  rw [encodeVecU8, encodeU8] at h
  split at h
  · simp at h
    subst h
    simp
  · simp at h

theorem decodeElems_nil {α : Type} (dec : List Nat → Option (α × List Nat)) (f : Nat) :
    decodeElems dec f [] = some [] := by
  cases f <;> rfl

theorem decodeElems_ok {α : Type} (enc : α → Option (List Nat))
    (dec : List Nat → Option (α × List Nat))
    (hround : ∀ x e r, enc x = some e → dec (e ++ r) = some (x, r))
    (hne : ∀ x e, enc x = some e → e ≠ []) :
    ∀ (xs : List α) (contents : List Nat) (f : Nat),
      encodeListWith enc xs = some contents → contents.length ≤ f →
      decodeElems dec f contents = some xs := by
  intro xs
  induction xs with
  | nil =>
    intro contents f h hf
    simp only [encodeListWith] at h
    cases h
    exact decodeElems_nil dec f
  | cons x xs ih =>
    intro contents f h hf
    simp only [encodeListWith] at h
    cases he : enc x with
    | none =>
      rw [he] at h
      cases hes : encodeListWith enc xs <;> rw [hes] at h <;> dsimp only at h <;> cases h
    | some e =>
      cases hes : encodeListWith enc xs with
      | none =>
        rw [he, hes] at h
        dsimp only at h
        cases h
      | some es =>
        rw [he, hes] at h
        dsimp only at h
        cases h
        obtain ⟨b, e', rfl⟩ := List.exists_cons_of_ne_nil (hne x e he)
        cases f with
        | zero => simp at hf
        | succ f2 =>
          have hd : dec ((b :: e') ++ es) = some (x, es) := hround x (b :: e') es he
          have hrec : decodeElems dec f2 es = some xs := by
            refine ih es f2 hes ?_
            simp at hf
            omega
          rw [List.cons_append]
          simp only [decodeElems]
          rw [show b :: (e' ++ es) = (b :: e') ++ es from rfl, hd]
          dsimp only
          rw [hrec]

theorem roundOptWith {α : Type} (enc : α → Option (List Nat))
    (dec : List Nat → Option (α × List Nat))
    (hround : ∀ x e r, enc x = some e → dec (e ++ r) = some (x, r)) :
    ∀ (o : Option α) (e r : List Nat), encodeOptWith enc o = some e →
      decodeOptWith dec (e ++ r) = some (o, r) := by
  intro o e r h
  cases o with
  | none =>
    simp only [encodeOptWith] at h
    cases h
    rfl
  | some x =>
    simp only [encodeOptWith] at h
    cases hx : enc x <;> rw [hx] at h
    · simp at h
    · simp at h
      subst h
      rename_i a
      simp only [List.cons_append, decodeOptWith]
      rw [if_pos trivial, hround x a r hx, if_neg (by decide)]

theorem encodeOptWith_ne_nil {α : Type} (enc : α → Option (List Nat)) (o : Option α)
    (e : List Nat) (h : encodeOptWith enc o = some e) : e ≠ [] := by
  cases o with
  | none =>
    simp only [encodeOptWith] at h
    cases h
    simp
  | some x =>
    simp only [encodeOptWith] at h
    cases hx : enc x <;> rw [hx] at h
    · simp at h
    · simp at h
      subst h
      simp

theorem roundNode (nd : ASTreeNodeB) (e r : List Nat)
    (h : encodeASTreeNodeB nd = some e) : decodeASTreeNodeB (e ++ r) = some (nd, r) := by
  rw [encodeASTreeNodeB] at h
  rw [decodeASTreeNodeB, roundVecU8 nd.secret e r h]

theorem encodeASTreeNodeB_ne_nil (nd : ASTreeNodeB) (e : List Nat)
    (h : encodeASTreeNodeB nd = some e) : e ≠ [] :=
  encodeVecU8_ne_nil nd.secret e h

theorem decodeCount_ok :
    ∀ (ps : List (List Nat)) (e r : List Nat),
      encodeListWith encodeVecU8 ps = some e →
      decodeCount decodeVecU8 ps.length (e ++ r) = some (ps, r) := by
  intro ps
  induction ps with
  | nil =>
    intro e r h
    simp only [encodeListWith] at h
    cases h
    rfl
  | cons p ps ih =>
    intro e r h
    simp only [encodeListWith] at h
    cases hp : encodeVecU8 p <;> rw [hp] at h
    · cases hes : encodeListWith encodeVecU8 ps <;> rw [hes] at h <;> dsimp only at h <;>
        cases h
    · cases hes : encodeListWith encodeVecU8 ps <;> rw [hes] at h <;> dsimp only at h
      · cases h
      · cases h
        rename_i ep es
        rw [List.length_cons]
        simp only [decodeCount]
        rw [List.append_assoc, roundVecU8 p ep (es ++ r) hp]
        dsimp only
        rw [ih es r hes]

theorem roundVec32 {α : Type} (enc : α → Option (List Nat))
    (dec : List Nat → Option (α × List Nat))
    (hround : ∀ x e r, enc x = some e → dec (e ++ r) = some (x, r))
    (hne : ∀ x e, enc x = some e → e ≠ [])
    (xs : List α) (e r : List Nat) (h : encodeVec32With enc xs = some e) :
    decodeVec32With dec (e ++ r) = some (xs, r) := by
  rw [encodeVec32With] at h
  cases hc : encodeListWith enc xs with
  | none =>
    rw [hc] at h
    cases h
  | some contents =>
    rw [hc] at h
    dsimp only at h
    cases h32 : encodeU32 contents.length <;> rw [h32] at h
    · simp at h
    · simp at h
      subst h
      rw [decodeVec32With, List.append_assoc, roundU32 contents.length _ _ h32]
      dsimp only
      rw [if_pos (by simp), List.take_left, List.drop_left,
        decodeElems_ok enc dec hround hne xs contents contents.length hc le_rfl]

theorem roundSenderRatchetB (rb : SenderRatchetB) (e r : List Nat)
    (h : encodeSenderRatchetB rb = some e) :
    decodeSenderRatchetB (e ++ r) = some (rb, r) := by
  rw [encodeSenderRatchetB] at h
  cases h1 : encodeCipherSuite rb.ciphersuite <;> rw [h1] at h <;>
    [skip; rename_i e1]
  · cases h2 : encodeU32 rb.index <;> rw [h2] at h <;>
      cases h3 : encodeU32 rb.generation <;> rw [h3] at h <;>
      cases h4 : encodeU32 rb.past_secrets.length <;> rw [h4] at h <;>
      cases h5 : encodeListWith encodeVecU8 rb.past_secrets <;> rw [h5] at h <;>
      dsimp only at h <;> cases h
  · cases h2 : encodeU32 rb.index <;> rw [h2] at h <;>
      cases h3 : encodeU32 rb.generation <;> rw [h3] at h <;>
      cases h4 : encodeU32 rb.past_secrets.length <;> rw [h4] at h <;>
      cases h5 : encodeListWith encodeVecU8 rb.past_secrets <;> rw [h5] at h <;>
      dsimp only at h
    case some.some.some.some =>
      cases h
      rename_i e2 e3 e4 e5
      rw [decodeSenderRatchetB]
      rw [List.append_assoc, List.append_assoc, List.append_assoc, List.append_assoc]
      rw [roundCipherSuite rb.ciphersuite e1 _ h1]
      dsimp only
      rw [roundU32 rb.index e2 _ h2]
      dsimp only
      rw [roundU32 rb.generation e3 _ h3]
      dsimp only
      rw [roundU32 rb.past_secrets.length e4 _ h4]
      dsimp only
      rw [decodeCount_ok rb.past_secrets e5 r h5]
    all_goals cases h

theorem roundASTreeB (t : ASTreeB) (e r : List Nat) (h : encodeASTreeB t = some e) :
    decodeASTreeB (e ++ r) = some (t, r) := by
  rw [encodeASTreeB] at h
  cases h1 : encodeCipherSuite t.ciphersuite <;> rw [h1] at h <;>
    cases h2 : encodeVec32With (encodeOptWith encodeASTreeNodeB) t.nodes <;> rw [h2] at h <;>
    cases h3 : encodeVec32With (encodeOptWith encodeSenderRatchetB) t.sender_ratchets <;>
      rw [h3] at h <;>
    cases h4 : encodeU32 t.size <;> rw [h4] at h <;>
    dsimp only at h
  case some.some.some.some =>
    cases h
    rename_i e1 e2 e3 e4
    rw [decodeASTreeB]
    rw [List.append_assoc, List.append_assoc, List.append_assoc]
    rw [roundCipherSuite t.ciphersuite e1 _ h1]
    dsimp only
    rw [roundVec32 (encodeOptWith encodeASTreeNodeB) (decodeOptWith decodeASTreeNodeB)
      (roundOptWith encodeASTreeNodeB decodeASTreeNodeB roundNode)
      (encodeOptWith_ne_nil encodeASTreeNodeB) t.nodes e2 _ h2]
    dsimp only
    rw [roundVec32 (encodeOptWith encodeSenderRatchetB) (decodeOptWith decodeSenderRatchetB)
      (roundOptWith encodeSenderRatchetB decodeSenderRatchetB roundSenderRatchetB)
      (encodeOptWith_ne_nil encodeSenderRatchetB) t.sender_ratchets e3 _ h3]
    dsimp only
    rw [roundU32 t.size e4 r h4]
  all_goals cases h

/-- C7.  Round-trip encoding: for every tree state that the canonical
encoder accepts — which includes every reachable state, whose secrets
are hash-sized byte strings — decoding the encoding returns a
structurally equal tree and consumes the whole byte string: the
ciphersuite, the size, the exact positions of present and absent node
and ratchet slots, and each ratchet's index, generation and
past-secrets window are all restored. -/
theorem codec_round_trip_C7 (t : ASTreeB) (bs : List Nat)
    (h : encodeASTreeB t = some bs) : decodeASTreeB bs = some (t, []) := by
  have hr := roundASTreeB t bs [] h
  rwa [List.append_nil] at hr

theorem codec_round_trip_C7_witness :
    decodeASTreeB
        [0, 3, 0, 0, 0, 5, 1, 2, 7, 9, 0, 0, 0, 0, 21, 1, 0, 3, 0, 0, 0, 1, 0, 0, 0, 2,
          0, 0, 0, 2, 1, 3, 2, 4, 5, 0, 0, 0, 0, 2] =
      some (ASTreeB.mk cs0 [some (ASTreeNodeB.mk [7, 9]), none]
        [some (SenderRatchetB.mk cs0 1 2 [[3], [4, 5]]), none] 2, []) :=
  codec_round_trip_C7
    (ASTreeB.mk cs0 [some (ASTreeNodeB.mk [7, 9]), none]
      [some (SenderRatchetB.mk cs0 1 2 [[3], [4, 5]]), none] 2)
    [0, 3, 0, 0, 0, 5, 1, 2, 7, 9, 0, 0, 0, 0, 21, 1, 0, 3, 0, 0, 0, 1, 0, 0, 0, 2,
      0, 0, 0, 2, 1, 3, 2, 4, 5, 0, 0, 0, 0, 2]
    (by decide)

theorem hash_down_needs_live (t : ASTree) (x : Nat) (t2 : ASTree)
    (h : t.hash_down x = some t2) : ∃ nd, t.nodes[x]? = some (some nd) := by
  rw [ASTree.hash_down] at h
  cases hx : t.nodes[x]? with
  | none => rw [hx] at h; simp at h
  | some o =>
    cases o with
    | none => rw [hx] at h; simp at h
    | some nd => exact ⟨nd, rfl⟩

theorem hashDownAll_cons_live (t : ASTree) (x : Nat) (rest : List Nat) (t3 : ASTree)
    (h : t.hashDownAll (x :: rest) = some t3) : ∃ nd, t.nodes[x]? = some (some nd) := by
  rw [ASTree.hashDownAll] at h
  cases hx : t.hash_down x with
  | none => rw [hx] at h; simp at h
  | some tmid => exact hash_down_needs_live t x tmid hx

theorem slot_trichotomy (t : ASTree) (i : Nat) :
    (∃ r, t.sender_ratchets[i]? = some (some r)) ∨
    (t.sender_ratchets[i]? = some none ∨ t.sender_ratchets[i]? = none) := by
  cases hslot : t.sender_ratchets[i]? with
  | none => exact Or.inr (Or.inr rfl)
  | some o =>
    cases o with
    | none => exact Or.inr (Or.inl rfl)
    | some r => exact Or.inl ⟨r, rfl⟩

theorem get_secret_fields (t : ASTree) (i g : Nat) (res : Except ASError ApplicationSecrets)
    (t2 : ASTree) (h : t.get_secret i g = some (res, t2)) :
    t2.size = t.size ∧ t2.nodes.length = t.nodes.length ∧
      t2.sender_ratchets.length = t.sender_ratchets.length := by
  by_cases hige : i ≥ t.size
  · rw [ASTree.get_secret, if_pos hige] at h
    simp only [Option.some.injEq, Prod.mk.injEq] at h
    rw [← h.2]
    exact ⟨rfl, rfl, rfl⟩
  · rcases slot_trichotomy t i with ⟨r, hslot⟩ | hslot
    · rw [get_secret_delegate_eq t i g r hige hslot] at h
      cases hr : r.get_secret g with
      | none => rw [hr] at h; simp at h
      | some p =>
        obtain ⟨res2, r2⟩ := p
        rw [hr] at h
        dsimp only at h
        simp only [Option.some.injEq, Prod.mk.injEq] at h
        rw [← h.2]
        refine ⟨rfl, rfl, ?_⟩
        show (t.sender_ratchets.set i (some r2)).length = _
        simp
    · rw [get_secret_materialize_eq t i g hige hslot] at h
      cases hm : t.materializeLeaf i with
      | none => rw [hm] at h; simp at h
      | some p =>
        obtain ⟨tm, sec⟩ := p
        rw [hm] at h
        dsimp only at h
        cases hr : (SenderRatchet.new i sec t.ciphersuite).get_secret g with
        | none => rw [hr] at h; simp at h
        | some q =>
          obtain ⟨res2, r2⟩ := q
          rw [hr] at h
          dsimp only at h
          simp only [Option.some.injEq, Prod.mk.injEq] at h
          obtain ⟨hmf1, hmf2, hmf3, hmf4⟩ := materializeLeaf_fields t i tm sec hm
          rw [← h.2]
          refine ⟨hmf2, ?_, ?_⟩
          · show (tm.nodes.set (2 * i) none).length = _
            simp [hmf4]
          · show (tm.sender_ratchets.set i (some r2)).length = _
            simp [hmf1]

theorem pathUp_mem_anc (n i : Nat) (hi : i < n) (pre mid suf : List Nat) (b a : Nat)
    (h : pathUp n (2 * i) = pre ++ b :: (mid ++ a :: suf)) : a ∈ ancestors n b := by
  have hanc := pathUp_ancestors n i (2 * i :: pre) (mid ++ a :: suf) b hi (by rw [h]; simp)
  rw [hanc]
  simp

theorem anc_not_child (n i a b : Nat) (hi : i < n) (pre suf : List Nat)
    (hsplit : pathUp n (2 * i) = pre ++ a :: suf) (hb : b ∈ ancestors n a) :
    b ≠ (leftRight n a).1 ∧ b ≠ (leftRight n a).2 ∧ b ≠ a := by
  refine ⟨?_, ?_, ?_⟩
  · intro hc
    have hca := pathUp_child_ancestors n i pre suf a b hi hsplit (Or.inl hc)
    have hmem : a ∈ ancestors n b := by rw [hca]; simp
    exact absurd (ancestors_trans n a b a hb hmem) (ancestors_irrefl n a)
  · intro hc
    have hca := pathUp_child_ancestors n i pre suf a b hi hsplit (Or.inr hc)
    have hmem : a ∈ ancestors n b := by rw [hca]; simp
    exact absurd (ancestors_trans n a b a hb hmem) (ancestors_irrefl n a)
  · intro hc
    rw [hc] at hb
    exact absurd hb (ancestors_irrefl n a)

theorem pathUp_mid_pairwise (n i : Nat) (hi : i < n) :
    ∀ (l pre suf : List Nat), pathUp n (2 * i) = pre ++ (l ++ suf) →
      l.Pairwise (fun a b => b ≠ (leftRight n a).1 ∧ b ≠ (leftRight n a).2 ∧ b ≠ a) := by
  intro l
  induction l with
  | nil => intro pre suf h; simp
  | cons a l2 ih =>
    intro pre suf h
    refine List.pairwise_cons.mpr ⟨?_, ih (pre ++ [a]) suf (by rw [h]; simp)⟩
    intro b hb
    obtain ⟨P, S, rfl⟩ := List.append_of_mem hb
    have hsplit : pathUp n (2 * i) = pre ++ a :: (P ++ b :: (S ++ suf)) := by
      rw [h]; simp
    have hbanc : b ∈ ancestors n a := pathUp_mem_anc n i hi pre P (S ++ suf) a b hsplit
    exact anc_not_child n i a b hi pre (P ++ b :: (S ++ suf)) hsplit hbanc

theorem mater_cases (t : ASTree) (i : Nat) (tm : ASTree) (s : Secret)
    (hi : i < t.size) (hm : t.materializeLeaf i = some (tm, s)) :
    (tm = t ∧ ∃ v, t.nodes[2 * i]? = some (some v)) ∨
    (∃ F2 y rest v,
      pathUp t.size (2 * i) = F2 ++ y :: rest ∧
      (∀ z ∈ 2 * i :: F2, t.nodes[z]? = some none) ∧
      t.nodes[y]? = some (some v) ∧
      t.hashDownAll (y :: F2.reverse) = some tm) := by
  rw [ASTree.materializeLeaf] at hm
  split at hm
  · exact absurd hm (by simp)
  · rename_i e hscan
    split at hm
    · exact absurd hm (by simp)
    · rename_i t3 hfold
      split at hm
      · rename_i nd hleaf
        simp only [Option.some.injEq, Prod.mk.injEq] at hm
        obtain ⟨rfl, rfl⟩ := hm
        by_cases hn2 : 2 ≤ t.size
        · have hdir : dirpath t.size (2 * i) ++ [root t.size] = pathUp t.size (2 * i) :=
            dropLast_append_of_getLast _ _ (pathUp_getLast t.size i hn2 hi)
          rw [hdir] at hscan
          rcases scanPath_shape _ _ _ hscan with ⟨hEL, hallnone⟩ |
            ⟨F, y, rest, hL, hE, hF, v, hy⟩
          · exfalso
            cases hW : (pathUp t.size (2 * i)).reverse with
            | nil =>
              have h2 := congrArg List.reverse hW
              simp at h2
              exact absurd h2 (pathUp_ne_nil t.size (2 * i) hn2)
            | cons w W2 =>
              have hWm : (e.drop 1).reverse = w :: W2 := by
                rw [hEL]
                exact hW
              rw [hWm] at hfold
              obtain ⟨nd2, hnd2⟩ := hashDownAll_cons_live t w W2 t3 hfold
              have hwp : w ∈ pathUp t.size (2 * i) := by
                have hrev : pathUp t.size (2 * i) = (w :: W2).reverse := by
                  rw [← hW]; simp
                rw [hrev]; simp
              have hwmem : w ∈ e := by
                rw [hEL]
                simp [hwp]
              have hwn := hallnone w hwmem
              rw [hwn] at hnd2
              simp at hnd2
          · cases F with
            | nil =>
              have hE1 : (e.drop 1).reverse = [] := by rw [hE]; simp
              rw [hE1] at hfold
              have hyl : 2 * i = y := by
                simp only [List.nil_append] at hL
                exact (List.cons.inj hL).1
              refine Or.inl ⟨(Option.some.inj hfold).symm, v, ?_⟩
              rw [hyl]
              exact hy
            | cons f0 F2 =>
              have hLc : 2 * i :: pathUp t.size (2 * i) = f0 :: (F2 ++ y :: rest) := by
                rw [hL]; rfl
              obtain ⟨hf0, hpath⟩ := List.cons.inj hLc
              have hdrop : e.drop 1 = F2 ++ [y] := by rw [hE]; rfl
              have hWr : (e.drop 1).reverse = y :: F2.reverse := by rw [hdrop]; simp
              rw [hWr] at hfold
              refine Or.inr ⟨F2, y, rest, v, hpath, ?_, hy, hfold⟩
              intro z hz
              rcases List.mem_cons.mp hz with rfl | hz
              · exact hF (2 * i) (by rw [hf0]; exact List.mem_cons_self _ _)
              · exact hF z (List.mem_cons_of_mem f0 hz)
        · have hsz1 : t.size = 1 := by omega
          have hi0 : i = 0 := by omega
          subst hi0
          rw [hsz1] at hscan
          rw [show dirpath 1 (2 * 0) = [] from rfl, show root 1 = 0 from rfl,
            show 2 * 0 = 0 from rfl] at hscan
          simp only [List.nil_append] at hscan
          rcases scanPath_shape _ _ _ hscan with ⟨hEL, hallnone⟩ |
            ⟨F, y, rest, hL, hE, hF, v, hy⟩
          · exfalso
            have hWm : (e.drop 1).reverse = [0] := by rw [hEL]; rfl
            rw [hWm] at hfold
            obtain ⟨nd2, hnd2⟩ := hashDownAll_cons_live t 0 [] t3 hfold
            have hwn := hallnone 0 (by rw [hEL]; simp)
            rw [hwn] at hnd2
            simp at hnd2
          · cases F with
            | nil =>
              have hE1 : (e.drop 1).reverse = [] := by rw [hE]; simp
              rw [hE1] at hfold
              have hyl : (2 : Nat) * 0 = y := by
                simp only [List.nil_append] at hL
                exact (List.cons.inj hL).1
              refine Or.inl ⟨(Option.some.inj hfold).symm, v, ?_⟩
              rw [hyl]
              exact hy
            | cons f0 F2 =>
              cases F2 with
              | nil =>
                exfalso
                have h01 := List.cons.inj hL
                obtain ⟨hf0, hL2⟩ := h01
                have h02 := List.cons.inj (by simpa using hL2)
                obtain ⟨hy0, _⟩ := h02
                have hfn := hF f0 (List.mem_cons_self _ _)
                rw [← hf0] at hfn
                rw [← hy0] at hy
                rw [hfn] at hy
                simp at hy
              | cons f1 F3 =>
                exfalso
                have hlen := congrArg List.length hL
                simp at hlen
      · exact absurd hm (by simp)

theorem mater_walk_none (t : ASTree) (i : Nat) (tm : ASTree) (s : Secret) (j : Nat)
    (hi : i < t.size) (hm : t.materializeLeaf i = some (tm, s))
    (hjnone : t.nodes[j]? = some none)
    (hanc : ∀ a ∈ ancestors t.size j, t.nodes[a]? = some none) :
    tm.nodes[j]? = some none := by
  rcases mater_cases t i tm s hi hm with ⟨rfl, -⟩ | ⟨F2, y, rest, v, hpath, hFn, hy, hfold⟩
  · exact hjnone
  · have hjlen : j < t.nodes.length := by
      by_contra hx
      rw [List.getElem?_eq_none (by omega)] at hjnone
      simp at hjnone
    have hlen := (hashDownAll_fields _ _ _ hfold).2.2.2
    have hjlt : j < tm.nodes.length := by omega
    obtain ⟨o, ho⟩ : ∃ o, tm.nodes[j]? = some o := ⟨_, List.getElem?_eq_getElem hjlt⟩
    cases o with
    | none => exact ho
    | some v2 =>
      exfalso
      obtain ⟨_, hchar2⟩ := foldChar (y :: F2.reverse) t tm t.size rfl hfold
      rcases hchar2 j v2 ho with hlive | ⟨x, hxW, hxc⟩
      · rw [hjnone] at hlive
        simp at hlive
      · have hymem : y ∈ ancestors t.size j := by
          rcases List.mem_cons.mp hxW with rfl | hxF
          · have hca := pathUp_child_ancestors t.size i F2 rest x j hi hpath hxc
            rw [hca]
            simp
          · have hxF2 : x ∈ F2 := by simpa using hxF
            obtain ⟨P, S, rfl⟩ := List.append_of_mem hxF2
            have hsplit2 : pathUp t.size (2 * i) = P ++ x :: (S ++ y :: rest) := by
              rw [hpath]
              simp
            have hca := pathUp_child_ancestors t.size i P (S ++ y :: rest) x j hi hsplit2 hxc
            rw [hca]
            simp
        have hyn := hanc y hymem
        rw [hyn] at hy
        simp at hy

theorem step_none_preserved (t : ASTree) (i g : Nat) (res : Except ASError ApplicationSecrets)
    (t2 : ASTree) (j : Nat) (h : t.get_secret i g = some (res, t2))
    (hjnone : t.nodes[j]? = some none)
    (hanc : ∀ a ∈ ancestors t.size j, t.nodes[a]? = some none) :
    t2.nodes[j]? = some none := by
  by_cases hige : i ≥ t.size
  · rw [ASTree.get_secret, if_pos hige] at h
    simp only [Option.some.injEq, Prod.mk.injEq] at h
    rw [← h.2]
    exact hjnone
  · rcases slot_trichotomy t i with ⟨r, hslot⟩ | hslot
    · rw [get_secret_delegate_eq t i g r hige hslot] at h
      cases hr : r.get_secret g with
      | none => rw [hr] at h; simp at h
      | some p =>
        obtain ⟨res2, r2⟩ := p
        rw [hr] at h
        dsimp only at h
        simp only [Option.some.injEq, Prod.mk.injEq] at h
        rw [← h.2]
        exact hjnone
    · rw [get_secret_materialize_eq t i g hige hslot] at h
      cases hm : t.materializeLeaf i with
      | none => rw [hm] at h; simp at h
      | some p =>
        obtain ⟨tm, sec⟩ := p
        rw [hm] at h
        dsimp only at h
        cases hr : (SenderRatchet.new i sec t.ciphersuite).get_secret g with
        | none => rw [hr] at h; simp at h
        | some q =>
          obtain ⟨res2, r2⟩ := q
          rw [hr] at h
          dsimp only at h
          simp only [Option.some.injEq, Prod.mk.injEq] at h
          have hmj := mater_walk_none t i tm sec j (by omega) hm hjnone hanc
          rw [← h.2]
          show (tm.nodes.set (2 * i) none)[j]? = some none
          have hml := (materializeLeaf_fields t i tm sec hm).2.2.2
          by_cases hj2i : j = 2 * i
          · subst hj2i
            have hjlen : 2 * i < t.nodes.length := by
              by_contra hx
              rw [List.getElem?_eq_none (by omega)] at hjnone
              simp at hjnone
            rw [List.getElem?_set_self (by omega)]
          · rw [List.getElem?_set_ne (by omega)]
            exact hmj

theorem erased_slot_step (t t2 : ASTree) (hstep : StepR t t2) (j : Nat)
    (he : ErasedSlot t j) : ErasedSlot t2 j := by
  obtain ⟨i, g, res, h⟩ := hstep
  obtain ⟨he1, he2⟩ := he
  obtain ⟨hsz, _, _⟩ := get_secret_fields t i g res t2 h
  refine ⟨step_none_preserved t i g res t2 j h he1 he2, ?_⟩
  intro a ha
  rw [hsz] at ha
  exact step_none_preserved t i g res t2 a h (he2 a ha)
    (fun z hz => he2 z (ancestors_trans t.size j a z ha hz))

theorem erased_slot_steps (t t2 : ASTree) (hsteps : Steps t t2) (j : Nat)
    (he : ErasedSlot t j) : ErasedSlot t2 j := by
  induction hsteps with
  | refl => exact he
  | tail hpre hstep ih => exact erased_slot_step _ _ hstep j ih

theorem new_NodesInv (cs : CipherSuite) (s : Secret) (n : Nat) :
    NodesInv (ASTree.new cs s n) := by
  intro j nd hlive a ha
  by_cases hn0 : 1 ≤ n
  · by_cases hroot : j = root n
    · exfalso
      subst hroot
      rw [new_size] at ha
      have h0 : ancestors n (root n) = [] := ancestors_root_nil n n (by omega) (by omega)
      rw [h0] at ha
      simp at ha
    · exfalso
      have hjo : (ASTree.new cs s n).nodes[j]? = some none ∨
          (ASTree.new cs s n).nodes[j]? = none := by
        by_cases hjb : j < 2 * n - 1
        · exact Or.inl (new_node_none cs s n j hjb hroot)
        · refine Or.inr ?_
          rw [List.getElem?_eq_none]
          rw [new_nodes_length]
          omega
      rcases hjo with h | h <;> rw [hlive] at h <;> simp at h
  · exfalso
    have h0 : (ASTree.new cs s n).nodes.length = 2 * n - 1 := new_nodes_length cs s n
    have hjl : j < (ASTree.new cs s n).nodes.length := by
      by_contra hx
      rw [List.getElem?_eq_none (by omega)] at hlive
      simp at hlive
    omega

theorem mater_NodesInv (t : ASTree) (i : Nat) (tm : ASTree) (s : Secret)
    (hi : i < t.size) (hm : t.materializeLeaf i = some (tm, s)) (hinv : NodesInv t) :
    NodesInv tm := by
  rcases mater_cases t i tm s hi hm with ⟨rfl, -⟩ | ⟨F2, y, rest, v, hpath, hFn, hy, hfold⟩
  · exact hinv
  · intro j nd hlive a ha
    have hsz : tm.size = t.size := (hashDownAll_fields _ _ _ hfold).2.1
    rw [hsz] at ha
    obtain ⟨_, hchar2⟩ := foldChar (y :: F2.reverse) t tm t.size rfl hfold
    have hflip := pathUp_mid_pairwise t.size i hi (F2 ++ [y]) [] rest
      (by rw [hpath]; simp)
    have hpw1 : ((F2 ++ [y]).reverse).Pairwise
        (fun a b => a ≠ (leftRight t.size b).1 ∧ a ≠ (leftRight t.size b).2 ∧ a ≠ b) := by
      rw [List.pairwise_reverse]
      exact hflip
    have hpw : (y :: F2.reverse).Pairwise
        (fun a b => a ≠ (leftRight t.size b).1 ∧ a ≠ (leftRight t.size b).2 ∧ a ≠ b) := by
      simpa using hpw1
    have hWnone : ∀ x ∈ y :: F2.reverse, tm.nodes[x]? = some none :=
      foldNone (y :: F2.reverse) t tm t.size rfl hfold hpw
    have hay : ancestors t.size y = rest.reverse :=
      pathUp_ancestors t.size i (2 * i :: F2) rest y hi (by rw [hpath]; rfl)
    have hrest_none : ∀ a2 ∈ rest, tm.nodes[a2]? = some none := by
      intro a2 ha2
      have hmem : a2 ∈ ancestors t.size y := by
        rw [hay]
        simpa using ha2
      exact mater_walk_none t i tm s a2 hi hm (hinv y v hy a2 hmem)
        (fun z hz => hinv y v hy z (ancestors_trans t.size y a2 z hmem hz))
    rcases hchar2 j nd hlive with hliveT | ⟨x, hxW, hxc⟩
    · exact mater_walk_none t i tm s a hi hm (hinv j nd hliveT a ha)
        (fun z hz => hinv j nd hliveT z (ancestors_trans t.size j a z ha hz))
    · rcases List.mem_cons.mp hxW with rfl | hxF
      · have hca := pathUp_child_ancestors t.size i F2 rest x j hi hpath hxc
        rw [hca] at ha
        have ha2 : a ∈ rest ∨ a = x := by simpa using ha
        rcases ha2 with haR | rfl
        · exact hrest_none a haR
        · exact hWnone a (List.mem_cons_self _ _)
      · have hxF2 : x ∈ F2 := by simpa using hxF
        obtain ⟨P, S, rfl⟩ := List.append_of_mem hxF2
        have hsplit2 : pathUp t.size (2 * i) = P ++ x :: (S ++ y :: rest) := by
          rw [hpath]
          simp
        have hca := pathUp_child_ancestors t.size i P (S ++ y :: rest) x j hi hsplit2 hxc
        rw [hca] at ha
        have ha2 : a ∈ rest ∨ a = y ∨ a ∈ S ∨ a = x := by simpa using ha
        rcases ha2 with haR | rfl | haS | rfl
        · exact hrest_none a haR
        · exact hWnone a (List.mem_cons_self _ _)
        · exact hWnone a (List.mem_cons_of_mem y (by simp [haS]))
        · exact hWnone a (List.mem_cons_of_mem y (by simp))

theorem step_NodesInv (t t2 : ASTree) (hstep : StepR t t2) (hinv : NodesInv t) :
    NodesInv t2 := by
  obtain ⟨i, g, res, h⟩ := hstep
  by_cases hige : i ≥ t.size
  · rw [ASTree.get_secret, if_pos hige] at h
    simp only [Option.some.injEq, Prod.mk.injEq] at h
    rw [← h.2]
    exact hinv
  · rcases slot_trichotomy t i with ⟨r, hslot⟩ | hslot
    · rw [get_secret_delegate_eq t i g r hige hslot] at h
      cases hr : r.get_secret g with
      | none => rw [hr] at h; simp at h
      | some p =>
        obtain ⟨res2, r2⟩ := p
        rw [hr] at h
        dsimp only at h
        simp only [Option.some.injEq, Prod.mk.injEq] at h
        rw [← h.2]
        intro j nd hlive a ha
        exact hinv j nd hlive a ha
    · rw [get_secret_materialize_eq t i g hige hslot] at h
      cases hm : t.materializeLeaf i with
      | none => rw [hm] at h; simp at h
      | some p =>
        obtain ⟨tm, sec⟩ := p
        rw [hm] at h
        dsimp only at h
        cases hr : (SenderRatchet.new i sec t.ciphersuite).get_secret g with
        | none => rw [hr] at h; simp at h
        | some q =>
          obtain ⟨res2, r2⟩ := q
          rw [hr] at h
          dsimp only at h
          simp only [Option.some.injEq, Prod.mk.injEq] at h
          have hminv := mater_NodesInv t i tm sec (by omega) hm hinv
          rw [← h.2]
          intro j nd hlive a ha
          have hlive2 : (tm.nodes.set (2 * i) none)[j]? = some (some nd) := hlive
          have ha2 : a ∈ ancestors tm.size j := ha
          show (tm.nodes.set (2 * i) none)[a]? = some none
          by_cases hj2i : j = 2 * i
          · exfalso
            subst hj2i
            by_cases hjb : 2 * i < tm.nodes.length
            · rw [List.getElem?_set_self (by omega)] at hlive2
              simp at hlive2
            · rw [List.getElem?_eq_none (by simp; omega)] at hlive2
              simp at hlive2
          · rw [List.getElem?_set_ne (by omega)] at hlive2
            have hanone := hminv j nd hlive2 a ha2
            by_cases ha2i : a = 2 * i
            · subst ha2i
              have hab : 2 * i < tm.nodes.length := by
                by_contra hx
                rw [List.getElem?_eq_none (by omega)] at hanone
                simp at hanone
              rw [List.getElem?_set_self (by omega)]
            · rw [List.getElem?_set_ne (by omega)]
              exact hanone

theorem reachable_NodesInv (t : ASTree) (h : Reachable t) : NodesInv t := by
  induction h with
  | base cs s n => exact new_NodesInv cs s n
  | step hreach hstep ih => exact step_NodesInv _ _ hstep ih

/-- C8.  In every tree reachable from `ASTree::new` by any sequence of
`get_secret` calls, once a node slot that held a secret has been set to
`None` by a call (by `hash_down` on that node or by the leaf erasure
after seeding a ratchet), no subsequent sequence of `get_secret` calls
ever sets that slot back to `Some`. -/
theorem erased_never_repopulated_C8 (t0 : ASTree) (h0 : Reachable t0)
    (i g : Nat) (res : Except ASError ApplicationSecrets) (t1 : ASTree)
    (hcall : t0.get_secret i g = some (res, t1))
    (j : Nat) (v : ASTreeNode) (hheld : t0.nodes[j]? = some (some v))
    (hgone : t1.nodes[j]? = some none)
    (t2 : ASTree) (hrest : Steps t1 t2) :
    t2.nodes[j]? = some none := by
  have hinv : NodesInv t0 := reachable_NodesInv t0 h0
  have hanc0 : ∀ a ∈ ancestors t0.size j, t0.nodes[a]? = some none := hinv j v hheld
  have he1 : ErasedSlot t1 j := by
    refine ⟨hgone, ?_⟩
    intro a ha
    have hsz := (get_secret_fields t0 i g res t1 hcall).1
    rw [hsz] at ha
    exact step_none_preserved t0 i g res t1 a hcall (hanc0 a ha)
      (fun z hz => hanc0 z (ancestors_trans t0.size j a z ha hz))
  exact (erased_slot_steps t1 t2 hrest j he1).1

theorem erased_never_repopulated_C8_witness :
    (ASTree.mk cs0
      [none, none, some (ASTreeNode.mk (Secret.derived appSecret0 "tree" 2 0))]
      [some (SenderRatchet.mk cs0 0 0 [Secret.derived appSecret0 "tree" 0 0]), none]
      2).nodes[1]? = some none :=
  erased_never_repopulated_C8 (ASTree.new cs0 appSecret0 2)
    (Reachable.base cs0 appSecret0 2) 0 0
    (Except.ok (ApplicationSecrets.mk
      (Secret.derived (Secret.derived appSecret0 "tree" 0 0) "app-nonce" 0 0)
      (Secret.derived (Secret.derived appSecret0 "tree" 0 0) "app-key" 0 0)))
    (ASTree.mk cs0
      [none, none, some (ASTreeNode.mk (Secret.derived appSecret0 "tree" 2 0))]
      [some (SenderRatchet.mk cs0 0 0 [Secret.derived appSecret0 "tree" 0 0]), none]
      2)
    (by rfl) 1 (ASTreeNode.mk appSecret0) (by rfl) (by rfl)
    (ASTree.mk cs0
      [none, none, some (ASTreeNode.mk (Secret.derived appSecret0 "tree" 2 0))]
      [some (SenderRatchet.mk cs0 0 0 [Secret.derived appSecret0 "tree" 0 0]), none]
      2)
    Relation.ReflTransGen.refl

theorem hash_down_children_live (t : ASTree) (x : Nat) (t2 : ASTree)
    (hd : t.hash_down x = some t2) (c : Nat)
    (hc : c = (leftRight t.size x).1 ∨ c = (leftRight t.size x).2) (hcx : c ≠ x) :
    ∃ v, t2.nodes[c]? = some (some v) := by
  rw [ASTree.hash_down] at hd
  cases hx : t.nodes[x]? with
  | none => rw [hx] at hd; simp at hd
  | some o =>
    cases o with
    | none => rw [hx] at hd; simp at hd
    | some nd =>
      rw [hx] at hd
      dsimp only at hd
      split at hd
      · rename_i hb
        rw [← Option.some.inj hd]
        show ∃ v, (((t.nodes.set _ _).set _ _).set x none)[c]? = some (some v)
        rw [List.getElem?_set_ne (by omega)]
        rcases hc with rfl | rfl
        · by_cases heq : (leftRight t.size x).1 = (leftRight t.size x).2
          · rw [heq, List.getElem?_set_self (by simpa using hb.2)]
            exact ⟨_, rfl⟩
          · rw [List.getElem?_set_ne (by omega), List.getElem?_set_self (by simpa using hb.1)]
            exact ⟨_, rfl⟩
        · rw [List.getElem?_set_self (by simpa using hb.2)]
          exact ⟨_, rfl⟩
      · simp at hd

theorem walk_off_children_live : ∀ (W : List Nat) (t tm : ASTree) (n i : Nat)
    (rest : List Nat), t.size = n → i < n →
    pathUp n (2 * i) = W.reverse ++ rest →
    t.hashDownAll W = some tm →
    ∀ x ∈ W, ∀ c, (c = (leftRight n x).1 ∨ c = (leftRight n x).2) →
      c ∉ 2 * i :: pathUp n (2 * i) →
      ∃ v, tm.nodes[c]? = some (some v) := by
  intro W
  induction W with
  | nil =>
    intro t tm n i rest hn hi hpre hfold x hx
    simp at hx
  | cons w W2 ih =>
    intro t tm n i rest hn hi hpre hfold x hx c hc hcpath
    rw [ASTree.hashDownAll] at hfold
    cases hd : t.hash_down w with
    | none => rw [hd] at hfold; simp at hfold
    | some tmid =>
      rw [hd] at hfold
      have hpre2 : pathUp n (2 * i) = W2.reverse ++ (w :: rest) := by
        rw [hpre]
        simp
      obtain ⟨hfr, hfs, hfc, hfl⟩ := hash_down_fields t w tmid hd
      rcases List.mem_cons.mp hx with rfl | hxW2
      · have hxmem : x ∈ pathUp n (2 * i) := by
          rw [hpre2]
          simp
        have hcx : c ≠ x := by
          intro he
          refine hcpath (List.mem_cons_of_mem _ ?_)
          rw [he]
          exact hxmem
        have hc2 : c = (leftRight t.size x).1 ∨ c = (leftRight t.size x).2 := by
          rw [hn]
          exact hc
        have hclive := hash_down_children_live t x tmid hd c hc2 hcx
        have hanc1 : ancestors n c = (x :: rest).reverse :=
          pathUp_child_ancestors n i W2.reverse rest x c hi hpre2 hc
        have hsep : ∀ w2 ∈ W2, c ≠ (leftRight n w2).1 ∧ c ≠ (leftRight n w2).2 ∧ c ≠ w2 := by
          intro w2 hw2
          have hw2r : w2 ∈ W2.reverse := by simpa using hw2
          obtain ⟨P2, S2, hPS⟩ := List.append_of_mem hw2r
          have hsplit2 : pathUp n (2 * i) = P2 ++ w2 :: (S2 ++ x :: rest) := by
            rw [hpre2, hPS]
            simp
          refine ⟨?_, ?_, ?_⟩
          · intro hcc
            have hanc2 : ancestors n c = (w2 :: (S2 ++ x :: rest)).reverse :=
              pathUp_child_ancestors n i P2 (S2 ++ x :: rest) w2 c hi hsplit2 (Or.inl hcc)
            have hlen := congrArg List.length (hanc1.symm.trans hanc2)
            simp only [List.length_reverse, List.length_cons, List.length_append] at hlen
            omega
          · intro hcc
            have hanc2 : ancestors n c = (w2 :: (S2 ++ x :: rest)).reverse :=
              pathUp_child_ancestors n i P2 (S2 ++ x :: rest) w2 c hi hsplit2 (Or.inr hcc)
            have hlen := congrArg List.length (hanc1.symm.trans hanc2)
            simp only [List.length_reverse, List.length_cons, List.length_append] at hlen
            omega
          · intro hcc
            refine hcpath (List.mem_cons_of_mem _ ?_)
            rw [hcc, hsplit2]
            simp
        obtain ⟨hchar1, _⟩ := foldChar W2 tmid tm n (by omega) hfold
        rw [hchar1 c hsep]
        exact hclive
      · exact ih tmid tm n i (w :: rest) (by omega) hi hpre2 hfold x hxW2 c hc hcpath

/-- C1 amended.  Universally: in any reachable tree, when `get_secret(i, g)`
succeeds at a leaf `i` that has no ratchet yet (a first touch), afterwards
every node slot on the path from the root down to leaf `i`, inclusive, is
`None`, and the nodes that became live are exactly the off-path children
of the traversed ancestors: there is a (possibly empty) lower segment `W`
of the leaf's ancestor path — the ancestors the call walked — such that
every node live afterwards was either already live or is an off-path
child of a member of `W`, and conversely every off-path child of a member
of `W` was empty before the call and is live after it.  (The original
claim's final clause for size 4 — that the other child of the root is the
only live node — is refuted by `first_touch_erasure_C1_counterexample`:
node 2, the sibling leaf, is live as well.) -/
theorem first_touch_erasure_C1_amended (t : ASTree) (hreach : Reachable t)
    (i g : Nat) (hi : i < t.size)
    (hslot : t.sender_ratchets[i]? = some none ∨ t.sender_ratchets[i]? = none)
    (a : ApplicationSecrets) (t2 : ASTree)
    (h : t.get_secret i g = some (Except.ok a, t2)) :
    (∀ x ∈ 2 * i :: pathUp t.size (2 * i), t2.nodes[x]? = some none) ∧
    ∃ (W rest : List Nat), pathUp t.size (2 * i) = W.reverse ++ rest ∧
      (∀ j v, t2.nodes[j]? = some (some v) →
        t.nodes[j]? = some (some v) ∨
        (j ∉ 2 * i :: pathUp t.size (2 * i) ∧
          ∃ x ∈ W, j = (leftRight t.size x).1 ∨ j = (leftRight t.size x).2)) ∧
      (∀ x ∈ W, ∀ c, (c = (leftRight t.size x).1 ∨ c = (leftRight t.size x).2) →
        c ∉ 2 * i :: pathUp t.size (2 * i) →
        t.nodes[c]? = some none ∧ ∃ v, t2.nodes[c]? = some (some v)) := by
  have hinv : NodesInv t := reachable_NodesInv t hreach
  have hige : ¬i ≥ t.size := by omega
  rw [get_secret_materialize_eq t i g hige hslot] at h
  cases hm : t.materializeLeaf i with
  | none => rw [hm] at h; simp at h
  | some p =>
    obtain ⟨tm, sec⟩ := p
    rw [hm] at h
    dsimp only at h
    cases hr : (SenderRatchet.new i sec t.ciphersuite).get_secret g with
    | none => rw [hr] at h; simp at h
    | some q =>
      obtain ⟨res2, r2⟩ := q
      rw [hr] at h
      dsimp only at h
      simp only [Option.some.injEq, Prod.mk.injEq] at h
      obtain ⟨hres, ht2⟩ := h
      have hmlen := (materializeLeaf_fields t i tm sec hm).2.2.2
      have hanc_leaf : ancestors t.size (2 * i) = (pathUp t.size (2 * i)).reverse :=
        pathUp_ancestors t.size i [] (pathUp t.size (2 * i)) (2 * i) hi rfl
      have hleaf_not : 2 * i ∉ pathUp t.size (2 * i) := by
        intro hmem
        refine ancestors_irrefl t.size (2 * i) ?_
        rw [hanc_leaf]
        simpa using hmem
      rcases mater_cases t i tm sec hi hm with ⟨rfl, v0, hlv⟩ |
        ⟨F2, y, rest, v, hpath, hFn, hy, hfold⟩
      · have hancnone : ∀ x ∈ pathUp tm.size (2 * i), tm.nodes[x]? = some none := by
          intro x hx
          refine hinv (2 * i) v0 hlv x ?_
          rw [hanc_leaf]
          simpa using hx
        have hlen2i : 2 * i < tm.nodes.length := by
          by_contra hx
          rw [List.getElem?_eq_none (by omega)] at hlv
          simp at hlv
        refine ⟨?_, [], pathUp tm.size (2 * i), by simp, ?_, by simp⟩
        · intro x hx
          rw [← ht2]
          show (tm.nodes.set (2 * i) none)[x]? = some none
          rcases List.mem_cons.mp hx with rfl | hx2
          · rw [List.getElem?_set_self (by omega)]
          · have hxne : x ≠ 2 * i := fun he => hleaf_not (he ▸ hx2)
            rw [List.getElem?_set_ne (by omega)]
            exact hancnone x hx2
        · intro j v2 hj
          rw [← ht2] at hj
          have hj2 : (tm.nodes.set (2 * i) none)[j]? = some (some v2) := hj
          left
          by_cases hj2i : j = 2 * i
          · subst hj2i
            rw [List.getElem?_set_self (by omega)] at hj2
            simp at hj2
          · rw [List.getElem?_set_ne (by omega)] at hj2
            exact hj2
      · have hflip := pathUp_mid_pairwise t.size i hi (F2 ++ [y]) [] rest
          (by rw [hpath]; simp)
        have hpw1 : ((F2 ++ [y]).reverse).Pairwise
            (fun a b => a ≠ (leftRight t.size b).1 ∧ a ≠ (leftRight t.size b).2 ∧ a ≠ b) := by
          rw [List.pairwise_reverse]
          exact hflip
        have hpw : (y :: F2.reverse).Pairwise
            (fun a b => a ≠ (leftRight t.size b).1 ∧ a ≠ (leftRight t.size b).2 ∧ a ≠ b) := by
          simpa using hpw1
        have hWnone : ∀ x ∈ y :: F2.reverse, tm.nodes[x]? = some none :=
          foldNone (y :: F2.reverse) t tm t.size rfl hfold hpw
        have hay : ancestors t.size y = rest.reverse :=
          pathUp_ancestors t.size i (2 * i :: F2) rest y hi (by rw [hpath]; rfl)
        have hrest_none : ∀ a2 ∈ rest, tm.nodes[a2]? = some none := by
          intro a2 ha2
          have hmem : a2 ∈ ancestors t.size y := by
            rw [hay]
            simpa using ha2
          exact mater_walk_none t i tm sec a2 hi hm (hinv y v hy a2 hmem)
            (fun z hz => hinv y v hy z (ancestors_trans t.size y a2 z hmem hz))
        have hlen2i : 2 * i < t.nodes.length := by
          have h0 := hFn (2 * i) (List.mem_cons_self _ _)
          by_contra hx
          rw [List.getElem?_eq_none (by omega)] at h0
          simp at h0
        have htm_path_none : ∀ x ∈ pathUp t.size (2 * i), tm.nodes[x]? = some none := by
          intro x hx2
          have hx3 : x ∈ F2 ++ y :: rest := by rw [← hpath]; exact hx2
          rcases List.mem_append.mp hx3 with hxF | hxYR
          · exact hWnone x (List.mem_cons_of_mem y (by simpa using hxF))
          · rcases List.mem_cons.mp hxYR with rfl | hxR
            · exact hWnone x (List.mem_cons_self _ _)
            · exact hrest_none x hxR
        have hpart1 : ∀ x ∈ 2 * i :: pathUp t.size (2 * i), t2.nodes[x]? = some none := by
          intro x hx
          rw [← ht2]
          show (tm.nodes.set (2 * i) none)[x]? = some none
          rcases List.mem_cons.mp hx with rfl | hx2
          · rw [List.getElem?_set_self (by omega)]
          · have hxne : x ≠ 2 * i := fun he => hleaf_not (he ▸ hx2)
            rw [List.getElem?_set_ne (by omega)]
            exact htm_path_none x hx2
        refine ⟨hpart1, y :: F2.reverse, rest, by rw [hpath]; simp, ?_, ?_⟩
        · intro j v2 hj
          rw [← ht2] at hj
          have hj2 : (tm.nodes.set (2 * i) none)[j]? = some (some v2) := hj
          by_cases hj2i : j = 2 * i
          · exfalso
            subst hj2i
            rw [List.getElem?_set_self (by omega)] at hj2
            simp at hj2
          · rw [List.getElem?_set_ne (by omega)] at hj2
            obtain ⟨_, hchar2⟩ := foldChar (y :: F2.reverse) t tm t.size rfl hfold
            rcases hchar2 j v2 hj2 with hlive | ⟨x, hxW, hxc⟩
            · exact Or.inl hlive
            · refine Or.inr ⟨?_, x, hxW, hxc⟩
              intro hjmem
              rcases List.mem_cons.mp hjmem with hje | hjp
              · exact hj2i hje
              · rw [htm_path_none j hjp] at hj2
                simp at hj2
        · intro x hxW c hc hcpath
          have hpre : pathUp t.size (2 * i) = (y :: F2.reverse).reverse ++ rest := by
            rw [hpath]
            simp
          obtain ⟨vc, hvc⟩ := walk_off_children_live (y :: F2.reverse) t tm t.size i rest
            rfl hi hpre hfold x hxW c hc hcpath
          have hc2i : c ≠ 2 * i := by
            intro he
            refine hcpath ?_
            rw [he]
            exact List.mem_cons_self _ _
          have hclen : c < tm.nodes.length := by
            by_contra hx2
            rw [List.getElem?_eq_none (by omega)] at hvc
            simp at hvc
          constructor
          · have hmemy : y ∈ ancestors t.size c := by
              rcases List.mem_cons.mp hxW with rfl | hxF
              · have hca := pathUp_child_ancestors t.size i F2 rest x c hi hpath hc
                rw [hca]
                simp
              · have hxF2 : x ∈ F2 := by simpa using hxF
                obtain ⟨P, S, hPS⟩ := List.append_of_mem hxF2
                have hsplit2 : pathUp t.size (2 * i) = P ++ x :: (S ++ y :: rest) := by
                  rw [hpath, hPS]
                  simp
                have hca := pathUp_child_ancestors t.size i P (S ++ y :: rest) x c hi
                  hsplit2 hc
                rw [hca]
                simp
            obtain ⟨o, ho⟩ : ∃ o, t.nodes[c]? = some o :=
              ⟨_, List.getElem?_eq_getElem (by omega : c < t.nodes.length)⟩
            cases o with
            | none => exact ho
            | some vc0 =>
              exfalso
              have hcn := hinv c vc0 ho y hmemy
              rw [hcn] at hy
              simp at hy
          · rw [← ht2]
            show ∃ v2, (tm.nodes.set (2 * i) none)[c]? = some (some v2)
            rw [List.getElem?_set_ne (by omega)]
            exact ⟨vc, hvc⟩

theorem first_touch_erasure_C1_witness :
    (∀ x ∈ 0 :: pathUp 4 0,
      (ASTree.mk cs0
        [none, none,
         some (ASTreeNode.mk (Secret.derived (Secret.derived appSecret0 "tree" 1 0) "tree" 2 0)),
         none, none,
         some (ASTreeNode.mk (Secret.derived appSecret0 "tree" 5 0)),
         none]
        [some (SenderRatchet.new 0
          (Secret.derived (Secret.derived appSecret0 "tree" 1 0) "tree" 0 0) cs0),
         none, none, none] 4).nodes[x]? = some none) ∧
    ∃ (W rest : List Nat), pathUp 4 0 = W.reverse ++ rest ∧
      (∀ j v,
        (ASTree.mk cs0
          [none, none,
           some (ASTreeNode.mk (Secret.derived (Secret.derived appSecret0 "tree" 1 0) "tree" 2 0)),
           none, none,
           some (ASTreeNode.mk (Secret.derived appSecret0 "tree" 5 0)),
           none]
          [some (SenderRatchet.new 0
            (Secret.derived (Secret.derived appSecret0 "tree" 1 0) "tree" 0 0) cs0),
           none, none, none] 4).nodes[j]? = some (some v) →
        (ASTree.new cs0 appSecret0 4).nodes[j]? = some (some v) ∨
        (j ∉ 0 :: pathUp 4 0 ∧
          ∃ x ∈ W, j = (leftRight 4 x).1 ∨ j = (leftRight 4 x).2)) ∧
      (∀ x ∈ W, ∀ c, (c = (leftRight 4 x).1 ∨ c = (leftRight 4 x).2) →
        c ∉ 0 :: pathUp 4 0 →
        (ASTree.new cs0 appSecret0 4).nodes[c]? = some none ∧
        ∃ v,
          (ASTree.mk cs0
            [none, none,
             some (ASTreeNode.mk
               (Secret.derived (Secret.derived appSecret0 "tree" 1 0) "tree" 2 0)),
             none, none,
             some (ASTreeNode.mk (Secret.derived appSecret0 "tree" 5 0)),
             none]
            [some (SenderRatchet.new 0
              (Secret.derived (Secret.derived appSecret0 "tree" 1 0) "tree" 0 0) cs0),
             none, none, none] 4).nodes[c]? = some (some v)) :=
  first_touch_erasure_C1_amended (ASTree.new cs0 appSecret0 4)
    (Reachable.base cs0 appSecret0 4) 0 0 (by decide) (Or.inl (by decide))
    (ApplicationSecrets.mk
      (Secret.derived (Secret.derived (Secret.derived appSecret0 "tree" 1 0) "tree" 0 0)
        "app-nonce" 0 0)
      (Secret.derived (Secret.derived (Secret.derived appSecret0 "tree" 1 0) "tree" 0 0)
        "app-key" 0 0))
    (ASTree.mk cs0
      [none, none,
       some (ASTreeNode.mk (Secret.derived (Secret.derived appSecret0 "tree" 1 0) "tree" 2 0)),
       none, none,
       some (ASTreeNode.mk (Secret.derived appSecret0 "tree" 5 0)),
       none]
      [some (SenderRatchet.new 0
        (Secret.derived (Secret.derived appSecret0 "tree" 1 0) "tree" 0 0) cs0),
       none, none, none] 4)
    (by decide)
